import Mathlib

/-!
Verification of the TiebreakerScenarios engine: a shallow embedding of the
standings calculator (`src/utils/standings.ts`), the tie-break resolver
(`src/utils/tiebreakers.ts`, four-argument version), the scenario enumerator
(`src/utils/simulation.ts`, `simulateConference`) and the condition analyzer
(`src/utils/scenarioAnalysis.ts`), together with theorems settling the
frozen claims about them.

Modelling conventions:
* JavaScript numbers used as win fractions are modelled as rationals (`ℚ`);
  all fractions occurring here have tiny numerators and denominators, where
  IEEE-754 division is exact enough that the comparisons agree.
* JavaScript `Map`/`Set` (insertion ordered) are modelled by lists deduplicated
  in insertion order, or by counting functions when only lookups matter.
* `Array.prototype.sort` (stable, applied to consistent comparators) is
  modelled by `List.mergeSort`, which is stable.
* `Math.floor(Math.random() * (i + 1))` is a value in `[0, i]`; the random
  source is a parameter `rand : (i : Nat) → Fin (i + 1)`.
* `string.localeCompare` on plain ASCII team names is modelled by the
  lexicographic order on `String`.
-/

namespace TS

/-- `Game` from `src/types.ts`: id, the two participant slots (`winner`/`loser`
are schedule-position labels while `played = false`), optional scores, and the
played flag. -/
structure Game where
  id : String
  winner : String
  winnerPts : Option Int
  loser : String
  loserPts : Option Int
  played : Bool
deriving DecidableEq, Repr

/-- `TeamRecord` from `src/types.ts` (the authoritative `standings.ts` build). -/
structure TeamRecord where
  team : String
  confWins : Nat
  confLosses : Nat
  gamesPlayed : Nat
  conferenceGamesPlayed : Nat
deriving DecidableEq, Repr

/-- `ConferenceData` from `src/types.ts`. -/
structure ConferenceData where
  name : String
  teams : List String
  games : List Game
deriving DecidableEq, Repr

/-- Insertion-ordered deduplication: the key order of a JS `Map`/`Set` built by
repeated insertion. -/
def insertionDedup (l : List String) : List String :=
  l.foldl (fun acc t => if t ∈ acc then acc else acc ++ [t]) []

/-- Codepoint-lexicographic string comparison: the behaviour of
`a.localeCompare(b) ≤ 0` on the plain ASCII team names. (`String`'s built-in
order is not kernel-reducible, so we compare the character data directly.) -/
def charListLe : List Char → List Char → Bool
  | [], _ => true
  | _ :: _, [] => false
  | a :: as, b :: bs =>
    if a.toNat < b.toNat then true
    else if b.toNat < a.toNat then false
    else charListLe as bs

def strLe (a b : String) : Bool := charListLe a.data b.data

/-- Kernel-computable addition, subtraction and absolute value on `ℚ`
(`Rat.add`/`Rat.sub` are `@[irreducible]`, which blocks `decide`); shown equal
to the field operations in `qadd_eq`/`qsub_eq`/`qabs_eq`. -/
def qadd (a b : ℚ) : ℚ := mkRat (a.num * b.den + b.num * a.den) (a.den * b.den)

def qsub (a b : ℚ) : ℚ := qadd a (-b)

def qabs (a : ℚ) : ℚ := if a < 0 then -a else a

/-! ## Standings Calculator (`src/utils/standings.ts`) -/

/-- A fresh zero record for team `t` (`conf.teams.forEach` initialisation). -/
def zeroRecord (t : String) : TeamRecord := ⟨t, 0, 0, 0, 0⟩

/-- In-place update of the record keyed `t` (JS `Map` value mutation). -/
def bumpWinner (l : List TeamRecord) (t : String) : List TeamRecord :=
  l.map fun r => if r.team = t then
    { r with confWins := r.confWins + 1, gamesPlayed := r.gamesPlayed + 1,
             conferenceGamesPlayed := r.conferenceGamesPlayed + 1 } else r

def bumpLoser (l : List TeamRecord) (t : String) : List TeamRecord :=
  l.map fun r => if r.team = t then
    { r with confLosses := r.confLosses + 1, gamesPlayed := r.gamesPlayed + 1,
             conferenceGamesPlayed := r.conferenceGamesPlayed + 1 } else r

/-- JS `Map.set`: overwrite in place if the key exists, else append. -/
def mapSet (l : List TeamRecord) (r : TeamRecord) : List TeamRecord :=
  if l.any (fun x => x.team = r.team) then
    l.map fun x => if x.team = r.team then r else x
  else l ++ [r]

/-- One iteration of the `conf.games.forEach` fold in `computeStandings`.
`w`/`l` (presence of the keys) are read before the winner update, as in the
source. -/
def procGame (recs : List TeamRecord) (g : Game) : List TeamRecord :=
  if !g.played then recs else
  let wIn := recs.any (fun x => x.team = g.winner)
  let lIn := recs.any (fun x => x.team = g.loser)
  let recs1 :=
    if wIn then bumpWinner recs g.winner
    else recs ++ [⟨g.winner, 1, 0, 1, 1⟩]
  if lIn then bumpLoser recs1 g.loser
  else mapSet recs1 ⟨g.loser, 0, 1, 1, 1⟩

/-- The sort key `confWins / Math.max(1, conferenceGamesPlayed)`. -/
def pct (r : TeamRecord) : ℚ := mkRat r.confWins (max 1 r.conferenceGamesPlayed)

/-- The comparator of `computeStandings` as a boolean `≤`-relation
(pct descending, then team name ascending). -/
def standingsLE (a b : TeamRecord) : Bool :=
  decide (pct b < pct a) || (decide (pct a = pct b) && strLe a.team b.team)

/-- `computeStandings` (`src/utils/standings.ts`). -/
def computeStandings (conf : ConferenceData) : List TeamRecord :=
  let init := (insertionDedup conf.teams).map zeroRecord
  let rows := conf.games.foldl procGame init
  List.insertionSort (fun a b => standingsLE a b = true) rows

/-- The sort relation of `computeStandings`, as a proposition. -/
def standingsRel (a b : TeamRecord) : Prop := standingsLE a b = true

instance : DecidableRel standingsRel := fun a b => by
  unfold standingsRel
  infer_instance

/-! ## Tie-Break Resolver (`src/utils/tiebreakers.ts`)

The four-argument `applyTieBreakers(confName, teams, games, standings)` version
actually called by `simulateConference`. The human-readable `explanation`
strings are purely presentational and omitted from the embedding. -/

/-- A single rule's verdict. -/
structure TieBreakerResult where
  team : String
  winner : Bool
deriving DecidableEq, Repr

/-- The tolerance `0.000001` used by the float comparisons in
`winOrderOfFinish` and `combinedOpponentWinPct`. -/
def eps : ℚ := mkRat 1 1000000

/-- Accumulator of the `forEach` scans of the form
`if (v > maxPct) {… isTied = false} else if (v === maxPct) isTied = true`. -/
structure ScanSt where
  maxV : ℚ
  team : Option String
  isTied : Bool
deriving Repr

/-- The exact-comparison strict-max scan; `val t = none` models the
`if (total === 0) return` skip. `maxV` starts at `-1`. -/
def strictMaxScan (keys : List String) (val : String → Option ℚ) : ScanSt :=
  keys.foldl (fun st t =>
    match val t with
    | none => st
    | some v =>
      if st.maxV < v then ⟨v, some t, false⟩
      else if v = st.maxV then { st with isTied := true }
      else st) ⟨-1, none, true⟩

/-- Accumulator of the epsilon-tolerant scans counting teams at the max. -/
structure CntSt where
  maxV : ℚ
  team : Option String
  cnt : Nat
deriving Repr

/-- The scan `if (pct > maxPct + 1e-6) {…countAtMax = 1} else if
(|pct − maxPct| ≤ 1e-6) countAtMax++`. -/
def countMaxScan (keys : List String) (val : String → ℚ) : CntSt :=
  keys.foldl (fun st t =>
    if qadd st.maxV eps < val t then ⟨val t, some t, 1⟩
    else if qabs (qsub (val t) st.maxV) ≤ eps then { st with cnt := st.cnt + 1 }
    else st) ⟨-1, none, 0⟩

/-- `headToHead`: first played game between the two teams decides. -/
def headToHead (teams : List String) (games : List Game) : Option TieBreakerResult :=
  if teams.length ≠ 2 then none
  else (games.find? fun g =>
      g.played && teams.contains g.winner && teams.contains g.loser).map
    fun g => ⟨g.winner, true⟩

/-- The games among the tied group (`roundRobinGames`). -/
def rrGamesOf (teams : List String) (games : List Game) : List Game :=
  games.filter fun g => g.played && teams.contains g.winner && teams.contains g.loser

/-- `roundRobin_twoScenarios` (Big 10 / Big 12 / AAC variant). -/
def roundRobin_twoScenarios (teams : List String) (games : List Game) :
    Option TieBreakerResult :=
  if teams.length < 3 then none else
  let rrGames := rrGamesOf teams games
  let n := teams.length
  let expectedGames := n * (n - 1) / 2
  let winCount := fun t => rrGames.countP (fun g => g.winner == t)
  let case1 : Option TieBreakerResult :=
    if rrGames.length = expectedGames then
      let st := strictMaxScan (insertionDedup teams) (fun t => some (winCount t : ℚ))
      match st.team with
      | some w => if st.isTied = false ∧ w ≠ "" then some ⟨w, true⟩ else none
      | none => none
    else none
  match case1 with
  | some r => some r
  | none =>
    match teams.find? (fun t => winCount t == n - 1) with
    | some t => if t ≠ "" then some ⟨t, true⟩ else none
    | none => none

/-- `roundRobin_threeScenarios` (ACC / SEC variant): additionally places a
team that lost to every other remaining member at the bottom. -/
def roundRobin_threeScenarios (teams : List String) (games : List Game) :
    Option TieBreakerResult :=
  if teams.length < 3 then none else
  let rrGames := rrGamesOf teams games
  let n := teams.length
  let expectedGames := n * (n - 1) / 2
  let winCount := fun t => rrGames.countP (fun g => g.winner == t)
  let lossCount := fun t => rrGames.countP (fun g => g.loser == t)
  let case1 : Option TieBreakerResult :=
    if rrGames.length = expectedGames then
      let st := strictMaxScan (insertionDedup teams) (fun t => some (winCount t : ℚ))
      match st.team with
      | some w => if st.isTied = false ∧ w ≠ "" then some ⟨w, true⟩ else none
      | none => none
    else none
  match case1 with
  | some r => some r
  | none =>
    match teams.find? (fun t => winCount t == n - 1) with
    | some t => if t ≠ "" then some ⟨t, true⟩ else none
    | none =>
      match teams.find? (fun t => lossCount t == n - 1) with
      | some t => if t ≠ "" then some ⟨t, false⟩ else none
      | none => none

/-- Opponents of `t` outside the tied group (the per-team `Set` of
`winPctCommonOpponents`), in insertion order. -/
def oppSetExcl (teams : List String) (games : List Game) (t : String) : List String :=
  insertionDedup <| (games.filter (·.played)).filterMap fun g =>
    if g.winner == t && !(teams.contains g.loser) then some g.loser
    else if g.loser == t && !(teams.contains g.winner) then some g.winner
    else none

/-- Common opponents: members of the first tied team's opponent set present in
every tied team's opponent set. -/
def commonOpponents (teams : List String) (games : List Game) : List String :=
  match insertionDedup teams with
  | [] => []
  | t0 :: _ =>
    (oppSetExcl teams games t0).filter fun opp =>
      (insertionDedup teams).all fun k => (oppSetExcl teams games k).contains opp

/-- `winPctCommonOpponents`: win fraction restricted to games against common
opponents; teams with no such games are skipped. -/
def winPctCommonOpponents (teams : List String) (games : List Game) :
    Option TieBreakerResult :=
  let commonOpp := commonOpponents teams games
  if commonOpp = [] then none else
  let wins := fun t => games.countP fun g =>
    g.played && g.winner == t && commonOpp.contains g.loser
  let losses := fun t => games.countP fun g =>
    g.played && g.loser == t && commonOpp.contains g.winner
  let st := strictMaxScan (insertionDedup teams) (fun t =>
    let total := wins t + losses t
    if total = 0 then none else some (mkRat (wins t) total))
  match st.team with
  | some w => if st.isTied = false ∧ w ≠ "" ∧ 0 ≤ st.maxV then some ⟨w, true⟩ else none
  | none => none

/-- Games won by `t` against `opp` (the `wins` field of `teamOpponentRecords`). -/
def winsVs (games : List Game) (t opp : String) : Nat :=
  games.countP fun g => g.played && g.winner == t && g.loser == opp

/-- Games played between `t` and `opp` (the `games` field of
`teamOpponentRecords`; only queried for `opp` outside the tied group). -/
def gamesVs (games : List Game) (t opp : String) : Nat :=
  games.countP fun g => g.played &&
    ((g.winner == t && g.loser == opp) || (g.loser == t && g.winner == opp))

/-- The standings walk of `winOrderOfFinish`: skip records at or above the tied
level one at a time, then treat each maximal consecutive equal-`confWins` run as
one opponent group. -/
def woofLoop (teams : List String) (games : List Game) (tiedWins : Nat) :
    Nat → List TeamRecord → Option TieBreakerResult
  | _, [] => none
  | 0, _ :: _ => none
  | fuel + 1, r :: rest =>
    if tiedWins ≤ r.confWins then woofLoop teams games tiedWins fuel rest
    else
      let run := r :: rest.takeWhile (fun s => s.confWins == r.confWins)
      let rest' := rest.dropWhile (fun s => s.confWins == r.confWins)
      let opponentGroup := (run.map (·.team)).filter (fun t => !(teams.contains t))
      if opponentGroup = [] then woofLoop teams games tiedWins fuel rest'
      else if !(teams.all fun t => opponentGroup.any fun opp => gamesVs games t opp != 0) then
        woofLoop teams games tiedWins fuel rest'
      else
        let recW := fun t => (opponentGroup.map (winsVs games t)).sum
        let recG := fun t => (opponentGroup.map (gamesVs games t)).sum
        let st := countMaxScan (insertionDedup teams) (fun t =>
          if recG t = 0 then 0 else mkRat (recW t) (recG t))
        match st.team with
        | some w =>
          if st.cnt = 1 ∧ w ≠ "" then some ⟨w, true⟩
          else woofLoop teams games tiedWins fuel rest'
        | none => woofLoop teams games tiedWins fuel rest'

/-- `winOrderOfFinish` (win % vs next-highest-placed common opponent group).
The standings walk advances at least one record per iteration, so fuel
`standings.length` makes `woofLoop` equal to the unbounded `while` loop
(`woofLoop_fuel` below). -/
def winOrderOfFinish (teams : List String) (games : List Game)
    (standings : List TeamRecord) : Option TieBreakerResult :=
  let tiedTeamWins := ((standings.find? fun s => teams.contains s.team).map
    (·.confWins)).getD 0
  woofLoop teams games tiedTeamWins standings.length standings

/-- All opponents of `t` (no group exclusion), insertion order
(`combinedOpponentWinPct`'s per-team `Set`). -/
def oppSetAll (games : List Game) (t : String) : List String :=
  insertionDedup <| (games.filter (·.played)).filterMap fun g =>
    if g.winner == t then some g.loser
    else if g.loser == t then some g.winner
    else none

/-- `combinedOpponentWinPct`: aggregate win fraction of each team's opponents. -/
def combinedOpponentWinPct (teams : List String) (games : List Game) :
    Option TieBreakerResult :=
  if teams.length < 2 then none else
  let pctOf := fun t =>
    let opps := oppSetAll games t
    let totalWins := (opps.map fun opp =>
      games.countP fun g => g.played && g.winner == opp).sum
    let totalGames := (opps.map fun opp =>
      games.countP fun g => g.played && (g.winner == opp || g.loser == opp)).sum
    if totalGames = 0 then (0 : ℚ) else mkRat totalWins totalGames
  let st := countMaxScan (insertionDedup teams) pctOf
  match st.team with
  | some w => if st.cnt = 1 ∧ w ≠ "" then some ⟨w, true⟩ else none
  | none => none

/-! ### The per-conference chains

`tiebreakers_aac/acc/big10/big12/sec/generic` share the same loop body and
differ only in the rule chain; the differences are captured by `ChainCfg`. -/

structure ChainCfg where
  /-- use `roundRobin_threeScenarios` (ACC / SEC) instead of `_twoScenarios` -/
  threeScenarios : Bool
  /-- generic chain: no round-robin rule for 3+ teams at all -/
  genericA : Bool
  /-- the chain includes `winOrderOfFinish` (all but AAC) -/
  useOOF : Bool
  /-- code under which `combinedOpponentWinPct` is recorded ("C" for AAC) -/
  combinedCode : String

def aacCfg : ChainCfg := ⟨false, false, false, "C"⟩
def accCfg : ChainCfg := ⟨true, false, true, "D"⟩
def big10Cfg : ChainCfg := ⟨false, false, true, "D"⟩
def genericCfg : ChainCfg := ⟨false, true, true, "D"⟩

/-- One iteration of the rule chain: the first applicable rule's decision
`(team, placed-at-top?, rule code)`, or `none` when no rule made progress. -/
def chainStep (cfg : ChainCfg) (games : List Game) (standings : List TeamRecord)
    (remaining : List String) : Option (String × Bool × String) :=
  let ruleA : Option (String × Bool × String) :=
    if remaining.length = 2 then
      (headToHead remaining games).map fun r => (r.team, true, "A")
    else if cfg.genericA then none
    else if cfg.threeScenarios then
      (roundRobin_threeScenarios remaining games).map fun r => (r.team, r.winner, "A")
    else
      (roundRobin_twoScenarios remaining games).map fun r => (r.team, true, "A")
  match ruleA with
  | some d => some d
  | none =>
    match (winPctCommonOpponents remaining games).map
        (fun r => (r.team, r.winner, "B")) with
    | some d => some d
    | none =>
      match (if cfg.useOOF then
          (winOrderOfFinish remaining games standings).map
            (fun r => (r.team, r.winner, "C"))
        else none) with
      | some d => some d
      | none =>
        (combinedOpponentWinPct remaining games).map
          fun r => (r.team, r.winner, cfg.combinedCode)

/-- The random source: `Math.floor(Math.random() * (i + 1))` is a value in
`[0, i]`. -/
def RandFun := (i : Nat) → Fin (i + 1)

/-- The always-0 random source, used for concrete evaluations. -/
def rand0 : RandFun := fun i => ⟨0, i.succ_pos⟩

/-- The JS destructuring swap `[l[i], l[j]] = [l[j], l[i]]`. -/
def listSwap (l : List String) (i j : Nat) : List String :=
  (l.set i (l.getD j "")).set j (l.getD i "")

/-- The Fisher–Yates loop `for (i = len-1; i > 0; i--) swap(i, rand i)`. -/
def fyLoop (rand : RandFun) : List String → Nat → List String
  | l, 0 => l
  | l, i + 1 => fyLoop rand (listSwap l (i + 1) (rand (i + 1)).val) i

def fisherYates (rand : RandFun) (l : List String) : List String :=
  fyLoop rand l (l.length - 1)

structure TieBreakerApplyResult where
  order : List String
  applied : List String
deriving DecidableEq, Repr

/-- JS `Set.add` on the trace of applied rule codes (insertion order kept). -/
def addCode (applied : List String) (c : String) : List String :=
  if c ∈ applied then applied else applied ++ [c]

/-- The `while (remaining.length > 1)` loop shared by all per-conference
tiebreaker functions, with explicit fuel (state: remaining, top, bottom,
applied). `none` is fuel exhaustion, which `applyTieBreakers_total` shows
unreachable for fuel > |remaining|: every rule decision removes a member of
`remaining` and the random fallback ends the loop. The trailing
`if (remaining.length === 1) top.push(remaining[0])` is the `top ++ remaining`
of the terminal case. -/
def tbLoop (cfg : ChainCfg) (games : List Game) (standings : List TeamRecord)
    (rand : RandFun) :
    Nat → List String → List String → List String → List String →
    Option (List String × List String × List String)
  | 0, _, _, _, _ => none
  | fuel + 1, remaining, top, bottom, applied =>
    if remaining.length > 1 then
      match chainStep cfg games standings remaining with
      | some (t, isTop, code) =>
        tbLoop cfg games standings rand fuel (remaining.filter fun x => x != t)
          (if isTop then top ++ [t] else top)
          (if isTop then bottom else bottom ++ [t])
          (addCode applied code)
      | none =>
        some (top ++ fisherYates rand remaining, bottom, addCode applied "G")
    else some (top ++ remaining, bottom, applied)

/-- Shared body of the `tiebreakers_*` functions. -/
def tiebreakersRun (cfg : ChainCfg) (teams : List String) (games : List Game)
    (standings : List TeamRecord) (rand : RandFun) : TieBreakerApplyResult :=
  match tbLoop cfg games standings rand (teams.length + 1) teams [] [] [] with
  | some (top, bottom, applied) => ⟨top ++ bottom, applied⟩
  | none => ⟨[], []⟩  -- unreachable: see `applyTieBreakers_total`

/-- `tiebreakers_aac` (does not consult the standings: no order-of-finish rule). -/
def tiebreakers_aac (teams : List String) (games : List Game) (rand : RandFun) :
    TieBreakerApplyResult :=
  tiebreakersRun aacCfg teams games [] rand

def tiebreakers_acc (teams : List String) (games : List Game)
    (standings : List TeamRecord) (rand : RandFun) : TieBreakerApplyResult :=
  tiebreakersRun accCfg teams games standings rand

def tiebreakers_big10 (teams : List String) (games : List Game)
    (standings : List TeamRecord) (rand : RandFun) : TieBreakerApplyResult :=
  tiebreakersRun big10Cfg teams games standings rand

def tiebreakers_big12 (teams : List String) (games : List Game)
    (standings : List TeamRecord) (rand : RandFun) : TieBreakerApplyResult :=
  tiebreakersRun big10Cfg teams games standings rand

def tiebreakers_sec (teams : List String) (games : List Game)
    (standings : List TeamRecord) (rand : RandFun) : TieBreakerApplyResult :=
  tiebreakersRun accCfg teams games standings rand

def tiebreakers_generic (teams : List String) (games : List Game)
    (standings : List TeamRecord) (rand : RandFun) : TieBreakerApplyResult :=
  tiebreakersRun genericCfg teams games standings rand

/-- `confName.toLowerCase()` on the character data (kernel-reducible version
of `String.toLower`). -/
def toLowerStr (s : String) : String := ⟨s.data.map Char.toLower⟩

/-- `applyTieBreakers(confName, teams, games, standings)`: dispatch on the
lower-cased conference name. -/
def applyTieBreakers (confName : String) (teams : List String) (games : List Game)
    (standings : List TeamRecord) (rand : RandFun) : TieBreakerApplyResult :=
  match toLowerStr confName with
  | "aac" => tiebreakers_aac teams games rand
  | "acc" => tiebreakers_acc teams games standings rand
  | "big10" => tiebreakers_big10 teams games standings rand
  | "big12" => tiebreakers_big12 teams games standings rand
  | "sec" => tiebreakers_sec teams games standings rand
  | _ => tiebreakers_generic teams games standings rand

/-! ## Scenario Enumerator (`src/utils/simulation.ts`) -/

/-- `Scenario` from `src/types.ts`. `appliedTieRules` is optional in the
source and absent in the zero-unplayed branch. -/
structure Scenario where
  gameResults : List Bool
  finalStandings : List TeamRecord
  topTwo : List String
  appliedTieRules : Option (List String)
deriving DecidableEq, Repr

def getUnplayedGames (conf : ConferenceData) : List Game :=
  conf.games.filter fun g => !g.played

/-- `gamesClone.findIndex(gc => gc.id === g.id)` followed by in-place
replacement (no-op when the id is absent). -/
def updateById (l : List Game) (gid : String) (g' : Game) : List Game :=
  match l.findIdx? (fun gc => gc.id == gid) with
  | some idx => l.set idx g'
  | none => l

/-- The inner `for (i = 0; i < limit; i++)` loop of `simulateConference`:
write each unplayed game's result according to bit `i` of `mask` (bit true =
the first named participant, i.e. the `winner` slot, wins) into the cloned
list, collecting `gameResults`. -/
def maskStep (mask : Nat) (acc : List Game × List Bool) (p : Nat × Game) :
    List Game × List Bool :=
  let i := p.1
  let g := p.2
  let bit := mask.testBit i
  let winnerTeam := if bit then g.winner else g.loser
  let loserTeam := if bit then g.loser else g.winner
  (updateById acc.1 g.id
     { g with played := true, winner := winnerTeam, loser := loserTeam },
   acc.2 ++ [bit])

def applyMask (unplayed : List Game) (mask : Nat) (gamesClone : List Game) :
    List Game × List Bool :=
  unplayed.enum.foldl (maskStep mask) (gamesClone, [])

/-- The tie-detection/resolution pass of `simulateConference`: walk the
sorted standings, pass every maximal consecutive run of equal `confWins`
of size ≥ 2 to `applyTieBreakers`, and re-emit records in the resolved
order. Each step consumes at least one record, so fuel
`finalStandings.length` makes this equal to the source's `while` loop. -/
def resolveTies (confName : String) (games : List Game)
    (finalStandings : List TeamRecord) (rand : RandFun) :
    Nat → List TeamRecord → List TeamRecord × List String
  | _, [] => ([], [])
  | 0, _ :: _ => ([], [])
  | fuel + 1, cur :: rest =>
    let run := cur :: rest.takeWhile (fun s => s.confWins == cur.confWins)
    let rest' := rest.dropWhile (fun s => s.confWins == cur.confWins)
    let tail := resolveTies confName games finalStandings rand fuel rest'
    if run.length > 1 then
      let res := applyTieBreakers confName (run.map (·.team)) games
        finalStandings rand
      let recs := res.order.filterMap
        (fun t => finalStandings.find? (fun r => r.team == t))
      (recs ++ tail.1, res.applied ++ tail.2)
    else (cur :: tail.1, tail.2)

/-- The body of the enumeration loop of `simulateConference` for one `mask`:
clone the game list (`conf.games.map(g => ({...g}))`), write the outcomes,
recompute the standings, resolve ties group by group, and record the
scenario. -/
def scenarioOfMask (rand : RandFun) (conf : ConferenceData)
    (unplayed : List Game) (mask : Nat) : Scenario :=
  let gamesClone := conf.games.map (fun g => g)
  let r := applyMask unplayed mask gamesClone
  let newConf := { conf with games := r.1 }
  let finalStandings := computeStandings newConf
  let rt := resolveTies newConf.name r.1 finalStandings rand
    finalStandings.length finalStandings
  let topTwo := (rt.1.take 2).map (·.team)
  { gameResults := r.2, finalStandings := rt.1, topTwo := topTwo,
    appliedTieRules := some (insertionDedup rt.2) }

/-- `simulateConference`. `MAX_SIMULATION` is imported from a constants
module that is not among the sources, so the cap is a parameter
(`maxSimulation`); the claims hold for every value of it. The random source
feeding the tiebreaker fallback is likewise a parameter. -/
def simulateConference (rand : RandFun) (maxSimulation : Nat)
    (conf : ConferenceData) : List Scenario :=
  let unplayed := getUnplayedGames conf
  let n := unplayed.length
  if n = 0 then
    let finalStandings := computeStandings conf
    let topTwo := (finalStandings.take 2).map (·.team)
    [{ gameResults := [], finalStandings := finalStandings, topTwo := topTwo,
       appliedTieRules := none }]
  else if n > maxSimulation then []
  else
    (List.range (2 ^ n)).map (scenarioOfMask rand conf unplayed)

/-- State-passing rendering of `simulateConference` for the frame claim:
the source `ConferenceData` is threaded through the enumeration loop
(mirroring the reference the JS closure holds) while all writes target the
per-mask clone `gamesClone` (`conf.games.map(g => ({...g}))`); the second
component is the source conference as the enumeration leaves it. -/
def simulateConferenceSt (rand : RandFun) (maxSimulation : Nat)
    (conf : ConferenceData) : List Scenario × ConferenceData :=
  let unplayed := getUnplayedGames conf
  let n := unplayed.length
  if n = 0 then
    let finalStandings := computeStandings conf
    let topTwo := (finalStandings.take 2).map (·.team)
    ([{ gameResults := [], finalStandings := finalStandings, topTwo := topTwo,
        appliedTieRules := none }], conf)
  else if n > maxSimulation then ([], conf)
  else
    (List.range (2 ^ n)).foldl (fun acc mask =>
      (acc.1 ++ [scenarioOfMask rand acc.2 unplayed mask], acc.2)) ([], conf)

/-! ## Condition Analyzer (`src/utils/scenarioAnalysis.ts`) -/

/-- A `(game, required winner)` entry of a condition. -/
structure GameOutcome where
  game : Game
  winner : String
  loser : String
deriving DecidableEq, Repr

/-- `SufficientCondition` and `BlockingCondition` share this shape:
`coverCount` is `guaranteedScenarios`/`blockedScenarios`, and
`scenarioIndices` (a JS `Set` built from the ascending list of matching
indices) is that list. -/
structure Condition where
  outcomes : List GameOutcome
  coverCount : Nat
  scenarioIndices : List Nat
deriving DecidableEq, Repr

def dummyGame : Game := ⟨"", "", none, "", none, false⟩

def dummyScenario : Scenario := ⟨[], [], [], none⟩

/-- `generateCombinations(n, k)` backtracking: all strictly increasing
`k`-tuples over `[start, n)`, in lexicographic order. -/
def genCombosFrom (n : Nat) : Nat → Nat → List (List Nat)
  | _, 0 => [[]]
  | start, k + 1 =>
    (List.range' start (n - start)).flatMap fun i =>
      (genCombosFrom n (i + 1) k).map (i :: ·)

def generateCombinations (n k : Nat) : List (List Nat) := genCombosFrom n 0 k

/-- The ascending list of scenario indices whose outcome vector agrees with
`pattern` on the chosen game indices (`sc.gameResults[gameIdx] ===
outcomes[i]`; an out-of-range access is `undefined`, never equal to a
boolean). -/
def patternMatchesOf (allScenarios : List Scenario) (indices : List Nat)
    (pattern : Nat) : List Nat :=
  (allScenarios.enum.filter fun p =>
    indices.enum.all fun q =>
      p.2.gameResults.get? q.2 == some (pattern.testBit q.1)).map (·.1)

/-- The `outcomesList` built for a recorded condition: bit true means the
`winner`-slot (first named) participant of that unplayed game must win. -/
def mkOutcomes (unplayedGames : List Game) (indices : List Nat)
    (pattern : Nat) : List GameOutcome :=
  indices.enum.map fun q =>
    let game := unplayedGames.getD q.2 dummyGame
    if pattern.testBit q.1 then ⟨game, game.winner, game.loser⟩
    else ⟨game, game.loser, game.winner⟩

/-- `findConditionsOfSize` / `findBlockingConditionsOfSize` (identical up to
the polarity `want` of the `topTwo.includes(targetTeam)` test). -/
def findConditionsOfSizeCore (want : Bool) (allScenarios : List Scenario)
    (unplayedGames : List Game) (targetTeam : String) (size : Nat) :
    List Condition :=
  (generateCombinations unplayedGames.length size).flatMap fun indices =>
    (List.range (2 ^ size)).filterMap fun outcomePattern =>
      let pm := patternMatchesOf allScenarios indices outcomePattern
      if pm ≠ [] ∧ ∀ idx ∈ pm,
          ((allScenarios.getD idx dummyScenario).topTwo.contains targetTeam)
            = want then
        some ⟨mkOutcomes unplayedGames indices outcomePattern, pm.length, pm⟩
      else none

/-- The dedup key `outcomes.map(o => `${o.winner}-${o.loser}`)`
(`JSON.stringify` comparison of the string lists). -/
def sigOf (c : Condition) : List String :=
  c.outcomes.map fun o => o.winner ++ "-" ++ o.loser

/-- The signature string contributed by unplayed game `g` under outcome
`b` (bit true = `winner` slot wins): exactly the `${o.winner}-${o.loser}`
entry of a condition recorded with that outcome. -/
def outStr (g : Game) (b : Bool) : String :=
  (if b then g.winner else g.loser) ++ "-" ++ (if b then g.loser else g.winner)

/-- The outcome strings of distinct (game index, outcome) pairs are distinct:
no two unplayed games share the same participant slots ("rematches") and no
game has identical slots. The reduction pass's string-based bookkeeping is
faithful exactly under this condition. -/
def sigInjective (unplayed : List Game) : Prop :=
  ∀ i₁ ∈ List.range unplayed.length, ∀ i₂ ∈ List.range unplayed.length,
    ∀ b₁ b₂ : Bool,
      outStr (unplayed.getD i₁ dummyGame) b₁ =
        outStr (unplayed.getD i₂ dummyGame) b₂ →
      i₁ = i₂ ∧ b₁ = b₂

instance (unplayed : List Game) : Decidable (sigInjective unplayed) := by
  unfold sigInjective
  infer_instance

/-- The reduction-pass comparator (fewest outcomes first, then most covered
scenarios), a consistent total preorder: the stable JS sort equals stable
insertion sort. -/
def condLE (a b : Condition) : Prop :=
  a.outcomes.length < b.outcomes.length ∨
    (a.outcomes.length = b.outcomes.length ∧ b.coverCount ≤ a.coverCount)

instance : DecidableRel condLE := fun a b => by unfold condLE; infer_instance

/-- `filter((c, idx) => findIndex(other => sameSig(other, c)) === idx)`: keep
the first occurrence of each signature. -/
def dedupBySigAux (seen : List (List String)) : List Condition → List Condition
  | [] => []
  | c :: rest =>
    if sigOf c ∈ seen then dedupBySigAux seen rest
    else c :: dedupBySigAux (sigOf c :: seen) rest

def dedupBySig (l : List Condition) : List Condition := dedupBySigAux [] l

/-- The `minimal` pass: drop a condition when a strictly smaller condition's
outcome strings all occur among its own (the `condA === condB` guard of the
source is subsumed by the strict length test). -/
def subsetFilter (l : List Condition) : List Condition :=
  l.filter fun condA => !(l.any fun condB =>
    condB.outcomes.length < condA.outcomes.length &&
    (sigOf condB).all (fun s => (sigOf condA).contains s))

/-- The `nonRedundant` pass: drop a condition whose scenario-index set is
contained in a strictly larger one (quantified over the `minimal` list
itself). -/
def coverageFilter (l : List Condition) : List Condition :=
  l.filter fun condA => !(l.any fun condB =>
    condA.scenarioIndices.all (fun idx => condB.scenarioIndices.contains idx) &&
    condA.scenarioIndices.length < condB.scenarioIndices.length)

/-- Does this outcome name the target team? -/
def hasTarget (targetTeam : String) (o : GameOutcome) : Bool :=
  o.winner == targetTeam || o.loser == targetTeam

/-- Reorder outcomes inside a condition so entries naming the target team come
first (the final stable, presentational sort). -/
def targetFirst (targetTeam : String) (c : Condition) : Condition :=
  let sortedOutcomes := List.insertionSort
    (fun a b => (hasTarget targetTeam a || !(hasTarget targetTeam b)) = true)
    c.outcomes
  { c with outcomes := sortedOutcomes }

/-- Shared body of `findSufficientConditions` / `findBlockingConditions`
(identical source up to `want`). -/
def findConditionsCore (want : Bool) (allScenarios : List Scenario)
    (unplayedGames : List Game) (targetTeam : String) : List Condition :=
  let maxCombinationSize := min unplayedGames.length 6
  let conditions := (List.range' 1 maxCombinationSize).flatMap fun size =>
    findConditionsOfSizeCore want allScenarios unplayedGames targetTeam size
  let sorted := List.insertionSort condLE conditions
  let unique := dedupBySig sorted
  let minimal := subsetFilter unique
  let nonRedundant := coverageFilter minimal
  nonRedundant.map (targetFirst targetTeam)

/-- The `conditions` accumulator of `findConditionsCore` (all recorded
candidates across sizes 1..min(n,6)). -/
def condCandidates (want : Bool) (allScenarios : List Scenario)
    (unplayedGames : List Game) (targetTeam : String) : List Condition :=
  (List.range' 1 (min unplayedGames.length 6)).flatMap fun size =>
    findConditionsOfSizeCore want allScenarios unplayedGames targetTeam size

/-- The `unique` list of `findConditionsCore` (sorted then deduplicated). -/
def condUnique (want : Bool) (allScenarios : List Scenario)
    (unplayedGames : List Game) (targetTeam : String) : List Condition :=
  dedupBySig (List.insertionSort condLE
    (condCandidates want allScenarios unplayedGames targetTeam))

/-- The `minimal` list of `findConditionsCore`. -/
def condMinimal (want : Bool) (allScenarios : List Scenario)
    (unplayedGames : List Game) (targetTeam : String) : List Condition :=
  subsetFilter (condUnique want allScenarios unplayedGames targetTeam)

def findSufficientConditions (allScenarios : List Scenario)
    (unplayedGames : List Game) (targetTeam : String) : List Condition :=
  findConditionsCore true allScenarios unplayedGames targetTeam

def findBlockingConditions (allScenarios : List Scenario)
    (unplayedGames : List Game) (targetTeam : String) : List Condition :=
  findConditionsCore false allScenarios unplayedGames targetTeam

/-- `TeamRequirements`. -/
structure TeamRequirements where
  team : String
  totalScenarios : Nat
  top2Count : Nat
  sufficientConditions : List Condition
  blockingConditions : List Condition
deriving DecidableEq, Repr

/-- `analyzeTeamRequirements`. -/
def analyzeTeamRequirements (team : String) (allScenarios : List Scenario)
    (unplayedGames : List Game) : TeamRequirements :=
  let successScenarios := allScenarios.filter fun sc => sc.topTwo.contains team
  if successScenarios.length = 0 then
    ⟨team, allScenarios.length, 0, [], []⟩
  else
    ⟨team, allScenarios.length, successScenarios.length,
     findSufficientConditions allScenarios unplayedGames team,
     findBlockingConditions allScenarios unplayedGames team⟩

/-! ## Concrete example inputs used by witnesses and counterexamples -/

/-- A fully played four-team schedule: A 1-1, B 1-1 (B beat A head-to-head),
C 0-2, D 2-0. The sorted standings are [D, A, B, C]; resolving the tied
group {A, B} puts B first. -/
def confT : ConferenceData :=
  ⟨"SEC", ["A", "B", "C", "D"],
   [⟨"g1", "B", none, "A", none, true⟩, ⟨"g2", "A", none, "C", none, true⟩,
    ⟨"g3", "D", none, "B", none, true⟩, ⟨"g4", "D", none, "C", none, true⟩]⟩

/-- A seven-team schedule with one unplayed game (F vs G): after any outcome,
A is 1-1 and B is 2-2 — identical win fraction, different win counts — while
D (1-0) and A share a win count with different fractions. -/
def confG : ConferenceData :=
  ⟨"ACC", ["A", "B", "C", "D", "E", "F", "G"],
   [⟨"p1", "B", none, "A", none, true⟩, ⟨"p2", "A", none, "C", none, true⟩,
    ⟨"p3", "B", none, "C", none, true⟩, ⟨"p4", "C", none, "B", none, true⟩,
    ⟨"p5", "D", none, "B", none, true⟩, ⟨"u1", "F", none, "G", none, false⟩]⟩

/-- The `confG` schedule as scenario 0 plays it out (outcome bit false:
the loser-slot team G wins the unplayed game). -/
def confG0 : ConferenceData :=
  { confG with
    games := (applyMask (getUnplayedGames confG) 0
      (confG.games.map (fun g => g))).1 }

/-- Two teams, one unplayed game between them. -/
def confU : ConferenceData :=
  ⟨"Big10", ["A", "B"],
   [⟨"g1", "A", none, "B", none, false⟩]⟩

/-- The unplayed-game list of the rematch counterexample: two distinct games
with the same participant slots. -/
def rematchGames : List Game :=
  [⟨"g1", "A", none, "B", none, false⟩, ⟨"g2", "A", none, "B", none, false⟩]

/-- A well-formed four-scenario enumeration over `rematchGames` ("A" is
top-two whenever it wins at least one of the two games). -/
def rematchScenarios : List Scenario :=
  [⟨[false, false], [], ["B", "C"], none⟩,
   ⟨[true, false],  [], ["A", "B"], none⟩,
   ⟨[false, true],  [], ["A", "B"], none⟩,
   ⟨[true, true],   [], ["A", "B"], none⟩]

/-! ## Arithmetic bridge lemmas -/

theorem qadd_eq (a b : ℚ) : qadd a b = a + b := by
  have ha : (a.den : ℚ) ≠ 0 := by exact_mod_cast a.den_nz
  have hb : (b.den : ℚ) ≠ 0 := by exact_mod_cast b.den_nz
  rw [qadd, Rat.mkRat_eq_div, eq_comm]
  conv_lhs => rw [← Rat.num_div_den a, ← Rat.num_div_den b]
  push_cast
  field_simp

theorem qsub_eq (a b : ℚ) : qsub a b = a - b := by
  rw [qsub, qadd_eq]; ring

theorem qabs_eq (a : ℚ) : qabs a = |a| := by
  rw [qabs]
  split
  · rw [abs_of_neg]; assumption
  · rw [abs_of_nonneg]; exact le_of_not_lt (by assumption)

/-! ## List helper lemmas -/

theorem mem_of_insertionDedup {l : List String} {x : String}
    (h : x ∈ insertionDedup l) : x ∈ l := by
  suffices H : ∀ (l : List String) (acc : List String),
      x ∈ l.foldl (fun acc t => if t ∈ acc then acc else acc ++ [t]) acc →
      x ∈ acc ∨ x ∈ l by
    rcases H l [] h with h' | h'
    · exact absurd h' (List.not_mem_nil x)
    · exact h'
  intro l
  induction l with
  | nil => intro acc h; exact Or.inl h
  | cons a t ih =>
    intro acc h
    simp only [List.foldl_cons] at h
    rcases ih _ h with h' | h'
    · by_cases ha : a ∈ acc
      · simp [ha] at h'
        exact Or.inl h'
      · simp [ha] at h'
        rcases h' with h' | h'
        · exact Or.inl h'
        · exact Or.inr (by simp [h'])
    · exact Or.inr (List.mem_cons_of_mem _ h')

theorem length_filter_ne_lt {l : List String} {t : String} (h : t ∈ l) :
    (l.filter fun x => x != t).length < l.length := by
  induction l with
  | nil => exact absurd h (List.not_mem_nil t)
  | cons a as ih =>
    by_cases ha : a = t
    · subst ha
      simp only [List.filter_cons, bne_self_eq_false, List.length_cons]
      exact Nat.lt_succ_of_le (List.length_filter_le _ _)
    · have ht : t ∈ as := by
        rcases List.mem_cons.mp h with h' | h'
        · exact absurd h'.symm ha
        · exact h'
      simp only [List.filter_cons, List.length_cons]
      have hbne : (a != t) = true := bne_iff_ne.mpr ha
      rw [hbne]
      simpa using Nat.succ_lt_succ (ih ht)

theorem filter_ne_of_not_mem {l : List String} {t : String} (h : t ∉ l) :
    (l.filter fun x => x != t) = l :=
  List.filter_eq_self.mpr fun _ hx => bne_iff_ne.mpr (fun hxt => h (hxt ▸ hx))

theorem cons_filter_ne_perm :
    ∀ {l : List String} {t : String}, t ∈ l → l.Nodup →
      (t :: l.filter fun x => x != t).Perm l := by
  intro l
  induction l with
  | nil => intro t h; exact absurd h (List.not_mem_nil t)
  | cons a as ih =>
    intro t h hnd
    by_cases ha : a = t
    · subst ha
      have hnot : a ∉ as := (List.nodup_cons.mp hnd).1
      simp only [List.filter_cons, bne_self_eq_false, Bool.false_eq_true,
        if_false]
      rw [filter_ne_of_not_mem hnot]
    · have ht : t ∈ as := by
        rcases List.mem_cons.mp h with h' | h'
        · exact absurd h'.symm ha
        · exact h'
      have hbne : (a != t) = true := bne_iff_ne.mpr ha
      simp only [List.filter_cons, hbne, if_true]
      exact (List.Perm.swap a t _).trans
        ((ih ht (List.nodup_cons.mp hnd).2).cons a)

theorem count_set_add (l : List String) (a x : String) :
    ∀ (n : Nat), n < l.length →
      (l.set n a).count x + (if l.getD n "" = x then 1 else 0) =
        l.count x + (if a = x then 1 else 0) := by
  induction l with
  | nil => intro n hn; simp at hn
  | cons b bs ih =>
    intro n hn
    cases n with
    | zero =>
      simp only [List.set_cons_zero, List.getD_cons_zero, List.count_cons]
      by_cases hb : b = x <;> by_cases hax : a = x <;>
        simp [hb, hax, beq_iff_eq]
    | succ m =>
      have hm : m < bs.length := by simpa using hn
      simp only [List.set_cons_succ, List.getD_cons_succ, List.count_cons]
      have H := ih m hm
      by_cases hb : b = x <;> by_cases hg : bs.getD m "" = x <;>
        by_cases hax : a = x <;>
        simp [hb, hg, hax, beq_iff_eq] at H ⊢ <;> omega

theorem listSwap_perm (l : List String) (i j : Nat) (hi : i < l.length)
    (hj : j < l.length) : (listSwap l i j).Perm l := by
  rw [List.perm_iff_count]
  intro x
  have hlen1 : (l.set i (l.getD j "")).length = l.length := by simp
  have h1 := count_set_add l (l.getD j "") x i hi
  have h2 := count_set_add (l.set i (l.getD j "")) (l.getD i "") x j
    (by rw [hlen1]; exact hj)
  unfold listSwap
  by_cases hij : i = j
  · subst hij
    have hget : (l.set i (l.getD i "")).getD i "" = l.getD i "" := by
      simp only [List.getD_eq_getElem?_getD, List.getElem?_set_self',
        Option.map_eq_map]
      cases l[i]? <;> rfl
    rw [hget] at h2
    omega
  · have hget : (l.set i (l.getD j "")).getD j "" = l.getD j "" := by
      simp only [List.getD_eq_getElem?_getD, List.getElem?_set_ne hij]
    rw [hget] at h2
    omega

theorem fyLoop_length (rand : RandFun) :
    ∀ (n : Nat) (l : List String), (fyLoop rand l n).length = l.length := by
  intro n
  induction n with
  | zero => intro l; rfl
  | succ m ih =>
    intro l
    show (fyLoop rand (listSwap l (m + 1) (rand (m + 1)).val) m).length = _
    rw [ih]
    unfold listSwap
    simp

theorem fyLoop_perm (rand : RandFun) :
    ∀ (n : Nat) (l : List String), n < l.length → (fyLoop rand l n).Perm l := by
  intro n
  induction n with
  | zero => intro l _; exact List.Perm.refl l
  | succ m ih =>
    intro l hn
    have hj : ((rand (m + 1)).val) < l.length :=
      Nat.lt_of_le_of_lt (Nat.le_of_lt_succ (rand (m + 1)).isLt) hn
    have hswap := listSwap_perm l (m + 1) (rand (m + 1)).val hn hj
    have hlen : m < (listSwap l (m + 1) (rand (m + 1)).val).length := by
      unfold listSwap
      simp only [List.length_set]
      omega
    exact (ih _ hlen).trans hswap

theorem fisherYates_perm (rand : RandFun) (l : List String) :
    (fisherYates rand l).Perm l := by
  unfold fisherYates
  cases l with
  | nil => exact List.Perm.refl _
  | cons a t =>
    exact fyLoop_perm rand _ _ (by simp)

/-! ## Membership lemmas for the tie-break rules

Every rule, when it decides, names a member of the remaining tied group;
this is what makes each loop iteration shrink `remaining`. -/

theorem foldl_proj_mem {σ : Type} (proj : σ → Option String) {f : σ → String → σ}
    (hf : ∀ st k, proj (f st k) = proj st ∨ proj (f st k) = some k) :
    ∀ (keys : List String) (st : σ) {t : String},
      proj (keys.foldl f st) = some t → proj st = some t ∨ t ∈ keys := by
  intro keys
  induction keys with
  | nil => exact fun st t h => Or.inl h
  | cons k ks ih =>
    intro st t h
    rw [List.foldl_cons] at h
    rcases ih _ h with h' | h'
    · rcases hf st k with hk | hk
      · exact Or.inl (hk ▸ h')
      · rw [hk] at h'
        have : k = t := by simpa using h'
        exact Or.inr (by simp [this])
    · exact Or.inr (List.mem_cons_of_mem _ h')

theorem strictMaxScan_team_mem {keys : List String} {val : String → Option ℚ}
    {t : String} (h : (strictMaxScan keys val).team = some t) : t ∈ keys := by
  unfold strictMaxScan at h
  have hf : ∀ (st : ScanSt) (k : String),
      ((fun (st : ScanSt) (t : String) =>
        match val t with
        | none => st
        | some v =>
          if st.maxV < v then (⟨v, some t, false⟩ : ScanSt)
          else if v = st.maxV then { st with isTied := true }
          else st) st k).team = st.team ∨
      ((fun (st : ScanSt) (t : String) =>
        match val t with
        | none => st
        | some v =>
          if st.maxV < v then (⟨v, some t, false⟩ : ScanSt)
          else if v = st.maxV then { st with isTied := true }
          else st) st k).team = some k := by
    intro st k
    cases hv : val k with
    | none => exact Or.inl (by simp [hv])
    | some v =>
      by_cases h1 : st.maxV < v
      · exact Or.inr (by simp [hv, h1])
      · by_cases h2 : v = st.maxV
        · exact Or.inl (by simp [hv, h1, h2])
        · exact Or.inl (by simp [hv, h1, h2])
  rcases foldl_proj_mem ScanSt.team hf keys _ h with h' | h'
  · simp at h'
  · exact h'

theorem countMaxScan_team_mem {keys : List String} {val : String → ℚ}
    {t : String} (h : (countMaxScan keys val).team = some t) : t ∈ keys := by
  unfold countMaxScan at h
  have hf : ∀ (st : CntSt) (k : String),
      ((fun (st : CntSt) (t : String) =>
        if qadd st.maxV eps < val t then (⟨val t, some t, 1⟩ : CntSt)
        else if qabs (qsub (val t) st.maxV) ≤ eps then { st with cnt := st.cnt + 1 }
        else st) st k).team = st.team ∨
      ((fun (st : CntSt) (t : String) =>
        if qadd st.maxV eps < val t then (⟨val t, some t, 1⟩ : CntSt)
        else if qabs (qsub (val t) st.maxV) ≤ eps then { st with cnt := st.cnt + 1 }
        else st) st k).team = some k := by
    intro st k
    by_cases h1 : qadd st.maxV eps < val k
    · exact Or.inr (by simp [h1])
    · by_cases h2 : qabs (qsub (val k) st.maxV) ≤ eps
      · exact Or.inl (by simp [h1, h2])
      · exact Or.inl (by simp [h1, h2])
  rcases foldl_proj_mem CntSt.team hf keys _ h with h' | h'
  · simp at h'
  · exact h'

theorem headToHead_mem {teams : List String} {games : List Game}
    {r : TieBreakerResult} (h : headToHead teams games = some r) :
    r.team ∈ teams := by
  unfold headToHead at h
  split at h
  · exact absurd h (by simp)
  · rw [Option.map_eq_some'] at h
    obtain ⟨g, hg, hr⟩ := h
    have hp := List.find?_some hg
    simp only [Bool.and_eq_true] at hp
    have : g.winner ∈ teams := by
      have := hp.1.2
      simpa using this
    rw [← hr]
    exact this

theorem roundRobin_twoScenarios_mem {teams : List String} {games : List Game}
    {r : TieBreakerResult} (h : roundRobin_twoScenarios teams games = some r) :
    r.team ∈ teams := by
  unfold roundRobin_twoScenarios at h
  dsimp only at h
  split at h
  · exact absurd h (by simp)
  · split at h
    case h_1 r' heq =>
      -- case 1 fired
      rw [Option.some_inj] at h
      subst h
      split at heq
      · split at heq
        case h_1 w hw =>
          split at heq
          · rw [Option.some_inj] at heq
            have := strictMaxScan_team_mem hw
            rw [← heq]
            exact mem_of_insertionDedup this
          · exact absurd heq (by simp)
        case h_2 => exact absurd heq (by simp)
      · exact absurd heq (by simp)
    case h_2 heq =>
      -- case 2
      split at h
      case h_1 t' ht' =>
        split at h
        · rw [Option.some_inj] at h
          rw [← h]
          exact List.mem_of_find?_eq_some ht'
        · exact absurd h (by simp)
      case h_2 => exact absurd h (by simp)

theorem roundRobin_threeScenarios_mem {teams : List String} {games : List Game}
    {r : TieBreakerResult} (h : roundRobin_threeScenarios teams games = some r) :
    r.team ∈ teams := by
  unfold roundRobin_threeScenarios at h
  dsimp only at h
  split at h
  · exact absurd h (by simp)
  · split at h
    case h_1 r' heq =>
      rw [Option.some_inj] at h
      subst h
      split at heq
      · split at heq
        case h_1 w hw =>
          split at heq
          · rw [Option.some_inj] at heq
            have := strictMaxScan_team_mem hw
            rw [← heq]
            exact mem_of_insertionDedup this
          · exact absurd heq (by simp)
        case h_2 => exact absurd heq (by simp)
      · exact absurd heq (by simp)
    case h_2 heq =>
      split at h
      case h_1 t' ht' =>
        split at h
        · rw [Option.some_inj] at h
          rw [← h]
          exact List.mem_of_find?_eq_some ht'
        · exact absurd h (by simp)
      case h_2 =>
        split at h
        case h_1 t' ht' =>
          split at h
          · rw [Option.some_inj] at h
            rw [← h]
            exact List.mem_of_find?_eq_some ht'
          · exact absurd h (by simp)
        case h_2 => exact absurd h (by simp)

theorem winPctCommonOpponents_mem {teams : List String} {games : List Game}
    {r : TieBreakerResult} (h : winPctCommonOpponents teams games = some r) :
    r.team ∈ teams := by
  unfold winPctCommonOpponents at h
  dsimp only at h
  split at h
  · exact absurd h (by simp)
  · split at h
    case h_1 w hw =>
      split at h
      · rw [Option.some_inj] at h
        rw [← h]
        exact mem_of_insertionDedup (strictMaxScan_team_mem hw)
      · exact absurd h (by simp)
    case h_2 => exact absurd h (by simp)

theorem woofLoop_mem {teams : List String} {games : List Game}
    {tiedWins : Nat} {r : TieBreakerResult} :
    ∀ {fuel : Nat} {standings : List TeamRecord},
      woofLoop teams games tiedWins fuel standings = some r →
      r.team ∈ teams := by
  intro fuel
  induction fuel with
  | zero =>
    intro standings h
    cases standings with
    | nil => exact absurd h (by simp [woofLoop])
    | cons a t => exact absurd h (by simp [woofLoop])
  | succ m ih =>
    intro standings h
    cases standings with
    | nil => exact absurd h (by simp [woofLoop])
    | cons rec rest =>
      rw [woofLoop] at h
      dsimp only at h
      split at h
      · exact ih h
      · split at h
        · exact ih h
        · split at h
          · exact ih h
          · split at h
            case h_1 w hw =>
              split at h
              · rw [Option.some_inj] at h
                rw [← h]
                exact mem_of_insertionDedup (countMaxScan_team_mem hw)
              · exact ih h
            case h_2 => exact ih h

theorem winOrderOfFinish_mem {teams : List String} {games : List Game}
    {standings : List TeamRecord} {r : TieBreakerResult}
    (h : winOrderOfFinish teams games standings = some r) : r.team ∈ teams :=
  woofLoop_mem h

theorem combinedOpponentWinPct_mem {teams : List String} {games : List Game}
    {r : TieBreakerResult} (h : combinedOpponentWinPct teams games = some r) :
    r.team ∈ teams := by
  unfold combinedOpponentWinPct at h
  dsimp only at h
  split at h
  · exact absurd h (by simp)
  · split at h
    case h_1 w hw =>
      split at h
      · rw [Option.some_inj] at h
        rw [← h]
        exact mem_of_insertionDedup (countMaxScan_team_mem hw)
      · exact absurd h (by simp)
    case h_2 => exact absurd h (by simp)

/-- Any decision made by one pass of the rule chain names a member of the
remaining group. -/
theorem chainStep_mem {cfg : ChainCfg} {games : List Game}
    {standings : List TeamRecord} {remaining : List String}
    {t : String} {b : Bool} {c : String}
    (h : chainStep cfg games standings remaining = some (t, b, c)) :
    t ∈ remaining := by
  unfold chainStep at h
  dsimp only at h
  split at h
  case h_1 d heq =>
    rw [Option.some_inj] at h
    subst h
    split at heq
    · rw [Option.map_eq_some'] at heq
      obtain ⟨r, hr, hd⟩ := heq
      have := headToHead_mem hr
      cases hd
      exact this
    · split at heq
      · exact absurd heq (by simp)
      · split at heq
        · rw [Option.map_eq_some'] at heq
          obtain ⟨r, hr, hd⟩ := heq
          have := roundRobin_threeScenarios_mem hr
          cases hd
          exact this
        · rw [Option.map_eq_some'] at heq
          obtain ⟨r, hr, hd⟩ := heq
          have := roundRobin_twoScenarios_mem hr
          cases hd
          exact this
  case h_2 heq =>
    split at h
    case h_1 d heq2 =>
      rw [Option.some_inj] at h
      subst h
      rw [Option.map_eq_some'] at heq2
      obtain ⟨r, hr, hd⟩ := heq2
      have := winPctCommonOpponents_mem hr
      cases hd
      exact this
    case h_2 =>
      split at h
      case h_1 d heq3 =>
        rw [Option.some_inj] at h
        subst h
        split at heq3
        · rw [Option.map_eq_some'] at heq3
          obtain ⟨r, hr, hd⟩ := heq3
          have := winOrderOfFinish_mem hr
          cases hd
          exact this
        · exact absurd heq3 (by simp)
      case h_2 =>
        rw [Option.map_eq_some'] at h
        obtain ⟨r, hr, hd⟩ := h
        have := combinedOpponentWinPct_mem hr
        cases hd
        exact this

/-! ## The tiebreaker loop: termination, shape, permutation -/

/-- With fuel exceeding the size of the remaining group, the loop always
reaches a terminal branch: the `while` loop of the source terminates. -/
theorem tbLoop_some (cfg : ChainCfg) (games : List Game)
    (standings : List TeamRecord) (rand : RandFun) :
    ∀ (fuel : Nat) (remaining top bottom applied : List String),
      remaining.length < fuel →
      ∃ res, tbLoop cfg games standings rand fuel remaining top bottom applied
        = some res := by
  intro fuel
  induction fuel with
  | zero => intro r t b a h; omega
  | succ m ih =>
    intro remaining top bottom applied h
    rw [tbLoop]
    by_cases hlen : remaining.length > 1
    · rw [if_pos hlen]
      cases hcs : chainStep cfg games standings remaining with
      | some d =>
        obtain ⟨t, isTop, code⟩ := d
        have hflt := length_filter_ne_lt (chainStep_mem hcs)
        exact ih _ _ _ _ (by omega)
      | none => exact ⟨_, rfl⟩
    · rw [if_neg hlen]
      exact ⟨_, rfl⟩

/-- The loop's result does not depend on the fuel, once adequate. -/
theorem tbLoop_fuel_congr (cfg : ChainCfg) (games : List Game)
    (standings : List TeamRecord) (rand : RandFun) :
    ∀ (f1 f2 : Nat) (remaining top bottom applied : List String),
      remaining.length < f1 → remaining.length < f2 →
      tbLoop cfg games standings rand f1 remaining top bottom applied =
      tbLoop cfg games standings rand f2 remaining top bottom applied := by
  intro f1
  induction f1 with
  | zero => intro f2 r t b a h _; omega
  | succ m ih =>
    intro f2 remaining top bottom applied h1 h2
    cases f2 with
    | zero => omega
    | succ m2 =>
      rw [tbLoop, tbLoop]
      by_cases hlen : remaining.length > 1
      · rw [if_pos hlen, if_pos hlen]
        cases hcs : chainStep cfg games standings remaining with
        | some d =>
          obtain ⟨t, isTop, code⟩ := d
          have hflt := length_filter_ne_lt (chainStep_mem hcs)
          exact ih m2 _ _ _ _ (by omega) (by omega)
        | none => rfl
      · rw [if_neg hlen, if_neg hlen]

/-- Loop invariant: on a duplicate-free group, the final `top ++ bottom` is a
permutation of the accumulated lists plus the remaining group. -/
theorem tbLoop_perm (cfg : ChainCfg) (games : List Game)
    (standings : List TeamRecord) (rand : RandFun) :
    ∀ (fuel : Nat) (remaining top bottom applied : List String)
      (res : List String × List String × List String),
      remaining.Nodup →
      tbLoop cfg games standings rand fuel remaining top bottom applied
        = some res →
      (res.1 ++ res.2.1).Perm (top ++ bottom ++ remaining) := by
  intro fuel
  induction fuel with
  | zero => intro r t b a res hnd h; exact absurd h (by simp [tbLoop])
  | succ m ih =>
    intro remaining top bottom applied res hnd h
    rw [tbLoop] at h
    by_cases hlen : remaining.length > 1
    · rw [if_pos hlen] at h
      cases hcs : chainStep cfg games standings remaining with
      | some d =>
        rw [hcs] at h
        obtain ⟨t, isTop, code⟩ := d
        have ht : t ∈ remaining := chainStep_mem hcs
        have hperm : (t :: remaining.filter fun x => x != t).Perm remaining :=
          cons_filter_ne_perm ht hnd
        have hnd' : (remaining.filter fun x => x != t).Nodup :=
          List.Nodup.filter _ hnd
        have IH := ih _ _ _ _ res hnd' h
        refine IH.trans ?_
        rw [List.perm_iff_count]
        intro x
        have hc := hperm.count_eq x
        cases isTop <;>
          simp only [Bool.false_eq_true, if_false, if_true,
            List.count_append, List.count_cons, List.count_nil] at hc ⊢ <;>
          omega
      | none =>
        rw [hcs, Option.some_inj] at h
        subst h
        rw [List.perm_iff_count]
        intro x
        have hc := (fisherYates_perm rand remaining).count_eq x
        simp only [List.count_append] at hc ⊢
        omega
    · rw [if_neg hlen, Option.some_inj] at h
      subst h
      rw [List.perm_iff_count]
      intro x
      simp only [List.count_append]
      omega

/-- `tiebreakersRun` always comes from a finished loop: the order is
`top ++ bottom` for the loop's accumulated decisions, and the loop finishes
under any adequate fuel. -/
theorem tiebreakersRun_eq (cfg : ChainCfg) (teams : List String)
    (games : List Game) (standings : List TeamRecord) (rand : RandFun) :
    ∃ top bottom applied,
      (∀ fuel, teams.length < fuel →
        tbLoop cfg games standings rand fuel teams [] [] [] =
          some (top, bottom, applied)) ∧
      tiebreakersRun cfg teams games standings rand =
        ⟨top ++ bottom, applied⟩ := by
  obtain ⟨res, hres⟩ := tbLoop_some cfg games standings rand
    (teams.length + 1) teams [] [] [] (by omega)
  obtain ⟨top, bottom, applied⟩ := res
  refine ⟨top, bottom, applied, ?_, ?_⟩
  · intro fuel hf
    rw [tbLoop_fuel_congr cfg games standings rand fuel (teams.length + 1)
      _ _ _ _ hf (by omega)]
    exact hres
  · unfold tiebreakersRun
    rw [hres]

theorem tiebreakersRun_perm (cfg : ChainCfg) (teams : List String)
    (games : List Game) (standings : List TeamRecord) (rand : RandFun)
    (h : teams.Nodup) :
    (tiebreakersRun cfg teams games standings rand).order.Perm teams := by
  obtain ⟨top, bottom, applied, hloop, heq⟩ :=
    tiebreakersRun_eq cfg teams games standings rand
  rw [heq]
  have := tbLoop_perm cfg games standings rand (teams.length + 1) teams
    [] [] [] (top, bottom, applied) h (hloop _ (by omega))
  simpa using this

/-- C2: for every conference name, tied group of at least two team names,
game list and standings list, the tie-break resolver terminates — under any
fuel exceeding the group size the loop reaches a terminal branch rather than
running forever or raising — and the returned result is
`[...topDecisions, ...bottomDecisions]` for the loop's accumulated top and
bottom decisions (a leftover singleton is appended to top and the random
fallback appends one permutation of the remaining subset to top and stops,
the two terminal branches of `tbLoop`), together with the list of rule codes
actually applied. -/
theorem applyTieBreakers_terminates_shape (confName : String)
    (teams : List String) (games : List Game) (standings : List TeamRecord)
    (rand : RandFun) (fuel : Nat) (h2 : 2 ≤ teams.length)
    (hfuel : teams.length < fuel) :
    ∃ cfg standingsArg top bottom applied,
      tbLoop cfg games standingsArg rand fuel teams [] [] [] =
        some (top, bottom, applied) ∧
      applyTieBreakers confName teams games standings rand =
        ⟨top ++ bottom, applied⟩ := by
  unfold applyTieBreakers
  split
  · obtain ⟨top, bottom, applied, hloop, heq⟩ :=
      tiebreakersRun_eq aacCfg teams games [] rand
    exact ⟨aacCfg, [], top, bottom, applied, hloop fuel hfuel, heq⟩
  · obtain ⟨top, bottom, applied, hloop, heq⟩ :=
      tiebreakersRun_eq accCfg teams games standings rand
    exact ⟨accCfg, standings, top, bottom, applied, hloop fuel hfuel, heq⟩
  · obtain ⟨top, bottom, applied, hloop, heq⟩ :=
      tiebreakersRun_eq big10Cfg teams games standings rand
    exact ⟨big10Cfg, standings, top, bottom, applied, hloop fuel hfuel, heq⟩
  · obtain ⟨top, bottom, applied, hloop, heq⟩ :=
      tiebreakersRun_eq big10Cfg teams games standings rand
    exact ⟨big10Cfg, standings, top, bottom, applied, hloop fuel hfuel, heq⟩
  · obtain ⟨top, bottom, applied, hloop, heq⟩ :=
      tiebreakersRun_eq accCfg teams games standings rand
    exact ⟨accCfg, standings, top, bottom, applied, hloop fuel hfuel, heq⟩
  · obtain ⟨top, bottom, applied, hloop, heq⟩ :=
      tiebreakersRun_eq genericCfg teams games standings rand
    exact ⟨genericCfg, standings, top, bottom, applied, hloop fuel hfuel, heq⟩

/-- Witness for C2 at a concrete two-team group with a head-to-head game. -/
theorem applyTieBreakers_terminates_shape_witness :
    2 ≤ (["A", "B"] : List String).length ∧
    (["A", "B"] : List String).length < 3 ∧
    (∃ cfg standingsArg top bottom applied,
      tbLoop cfg confT.games standingsArg rand0 3 ["A", "B"] [] [] [] =
        some (top, bottom, applied) ∧
      applyTieBreakers "SEC" ["A", "B"] confT.games [] rand0 =
        ⟨top ++ bottom, applied⟩) :=
  ⟨by decide, by decide,
   applyTieBreakers_terminates_shape "SEC" ["A", "B"] confT.games [] rand0 3
     (by decide) (by decide)⟩

/-- C10 counterexample: with a duplicated name in the tied-group list the
random fallback emits the name twice, so the order is not a list in which
every input team name appears exactly once. -/
theorem applyTieBreakers_dup_counterexample :
    "A" ∈ (["A", "A", "B"] : List String) ∧
    (applyTieBreakers "Big13" ["A", "A", "B"] [] [] rand0).order.count "A"
      = 2 := by decide

/-- C10 (amended): for every conference name, duplicate-free tied-group list,
game list and standings list, the returned order is a permutation of the
input group — every input team name appears exactly once and no other name
appears — whichever rules fire and whether or not the random fallback is
taken. -/
theorem applyTieBreakers_order_perm (confName : String) (teams : List String)
    (games : List Game) (standings : List TeamRecord) (rand : RandFun)
    (h : teams.Nodup) :
    (applyTieBreakers confName teams games standings rand).order.Perm teams := by
  unfold applyTieBreakers
  split
  · exact tiebreakersRun_perm aacCfg teams games [] rand h
  · exact tiebreakersRun_perm accCfg teams games standings rand h
  · exact tiebreakersRun_perm big10Cfg teams games standings rand h
  · exact tiebreakersRun_perm big10Cfg teams games standings rand h
  · exact tiebreakersRun_perm accCfg teams games standings rand h
  · exact tiebreakersRun_perm genericCfg teams games standings rand h

/-- Witness for the amended C10 at a concrete input. -/
theorem applyTieBreakers_order_perm_witness :
    (["A", "B"] : List String).Nodup ∧
    (applyTieBreakers "SEC" ["A", "B"] confT.games [] rand0).order.Perm
      ["A", "B"] :=
  ⟨by decide,
   applyTieBreakers_order_perm "SEC" ["A", "B"] confT.games [] rand0
     (by decide)⟩

/-! ## Standings calculator lemmas (C8) -/

theorem charListLe_total : ∀ (a b : List Char),
    charListLe a b = true ∨ charListLe b a = true := by
  intro a
  induction a with
  | nil => intro b; exact Or.inl rfl
  | cons x xs ih =>
    intro b
    cases b with
    | nil => exact Or.inr rfl
    | cons y ys =>
      by_cases h1 : x.toNat < y.toNat
      · exact Or.inl (by simp [charListLe, h1])
      · by_cases h2 : y.toNat < x.toNat
        · exact Or.inr (by simp [charListLe, h2])
        · rcases ih ys with h | h
          · exact Or.inl (by simp [charListLe, h1, h2]; exact h)
          · exact Or.inr (by simp [charListLe, h1, h2]; exact h)

theorem charListLe_trans : ∀ (a b c : List Char),
    charListLe a b = true → charListLe b c = true → charListLe a c = true := by
  intro a
  induction a with
  | nil => intro b c _ _; rfl
  | cons x xs ih =>
    intro b c hab hbc
    cases b with
    | nil => exact absurd hab (by simp [charListLe])
    | cons y ys =>
      cases c with
      | nil => exact absurd hbc (by simp [charListLe])
      | cons z zs =>
        rw [charListLe] at hab hbc ⊢
        by_cases hxy : x.toNat < y.toNat <;> by_cases hyz : y.toNat < z.toNat <;>
          by_cases hyx : y.toNat < x.toNat <;> by_cases hzy : z.toNat < y.toNat <;>
          by_cases hxz : x.toNat < z.toNat <;> by_cases hzx : z.toNat < x.toNat <;>
          simp_all <;>
          first
            | omega
            | exact Or.inr (ih ys zs hab hbc)

theorem strLe_total (a b : String) : strLe a b = true ∨ strLe b a = true :=
  charListLe_total a.data b.data

theorem strLe_trans {a b c : String} (h1 : strLe a b = true)
    (h2 : strLe b c = true) : strLe a c = true :=
  charListLe_trans a.data b.data c.data h1 h2

/-- The standings comparator as a relation. -/
theorem standingsRel_iff (a b : TeamRecord) :
    standingsRel a b ↔
      (pct b < pct a ∨ (pct a = pct b ∧ strLe a.team b.team = true)) := by
  unfold standingsRel standingsLE
  constructor
  · intro h
    rcases Bool.or_eq_true_iff.mp h with h | h
    · exact Or.inl (of_decide_eq_true h)
    · rcases Bool.and_eq_true_iff.mp h with ⟨h1, h2⟩
      exact Or.inr ⟨of_decide_eq_true h1, h2⟩
  · intro h
    rcases h with h | ⟨h1, h2⟩
    · exact Bool.or_eq_true_iff.mpr (Or.inl (decide_eq_true h))
    · exact Bool.or_eq_true_iff.mpr
        (Or.inr (Bool.and_eq_true_iff.mpr ⟨decide_eq_true h1, h2⟩))

theorem standingsRel_total (a b : TeamRecord) :
    standingsRel a b ∨ standingsRel b a := by
  rw [standingsRel_iff, standingsRel_iff]
  rcases lt_trichotomy (pct a) (pct b) with h | h | h
  · exact Or.inr (Or.inl h)
  · rcases strLe_total a.team b.team with h' | h'
    · exact Or.inl (Or.inr ⟨h, h'⟩)
    · exact Or.inr (Or.inr ⟨h.symm, h'⟩)
  · exact Or.inl (Or.inl h)

theorem standingsRel_trans {a b c : TeamRecord} (h1 : standingsRel a b)
    (h2 : standingsRel b c) : standingsRel a c := by
  rw [standingsRel_iff] at h1 h2 ⊢
  rcases h1 with h1 | ⟨h1, h1'⟩ <;> rcases h2 with h2 | ⟨h2, h2'⟩
  · exact Or.inl (h2.trans h1)
  · exact Or.inl (h2 ▸ h1)
  · exact Or.inl (h1.symm ▸ h2)
  · exact Or.inr ⟨h1.trans h2, strLe_trans h1' h2'⟩

theorem insertionDedup_mem_iff {l : List String} {x : String} :
    x ∈ insertionDedup l ↔ x ∈ l := by
  suffices H : ∀ (l acc : List String),
      x ∈ l.foldl (fun acc t => if t ∈ acc then acc else acc ++ [t]) acc ↔
      x ∈ acc ∨ x ∈ l by
    rw [insertionDedup, H l []]
    simp
  intro l
  induction l with
  | nil => intro acc; simp
  | cons a t ih =>
    intro acc
    rw [List.foldl_cons, ih]
    by_cases ha : a ∈ acc
    · simp only [ha, if_true, List.mem_cons]
      constructor
      · rintro (h | h)
        · exact Or.inl h
        · exact Or.inr (Or.inr h)
      · rintro (h | h | h)
        · exact Or.inl h
        · exact Or.inl (h ▸ ha)
        · exact Or.inr h
    · simp only [ha, if_false, List.mem_append, List.mem_singleton,
        List.mem_cons]
      tauto

theorem insertionDedup_nodup (l : List String) : (insertionDedup l).Nodup := by
  suffices H : ∀ (l acc : List String), acc.Nodup →
      (l.foldl (fun acc t => if t ∈ acc then acc else acc ++ [t]) acc).Nodup by
    exact H l [] List.nodup_nil
  intro l
  induction l with
  | nil => intro acc h; exact h
  | cons a t ih =>
    intro acc h
    rw [List.foldl_cons]
    by_cases ha : a ∈ acc
    · rw [if_pos ha]; exact ih acc h
    · rw [if_neg ha]
      refine ih _ ?_
      simpa [List.nodup_append] using ⟨h, ha⟩

theorem any_team_eq_false_iff {recs : List TeamRecord} {t : String} :
    recs.any (fun x => x.team = t) = false ↔ t ∉ recs.map (·.team) := by
  rw [List.any_eq_false]
  simp only [List.mem_map, decide_eq_true_eq]
  constructor
  · rintro h ⟨r, hr, hrt⟩
    exact h r hr hrt
  · intro h r hr hrt
    exact h ⟨r, hr, hrt⟩

theorem bumpWinner_team_map (l : List TeamRecord) (t : String) :
    (bumpWinner l t).map (·.team) = l.map (·.team) := by
  rw [bumpWinner, List.map_map]
  apply List.map_congr_left
  intro r _
  by_cases h : r.team = t <;> simp [h]

theorem bumpLoser_team_map (l : List TeamRecord) (t : String) :
    (bumpLoser l t).map (·.team) = l.map (·.team) := by
  rw [bumpLoser, List.map_map]
  apply List.map_congr_left
  intro r _
  by_cases h : r.team = t <;> simp [h]

theorem mapSet_team_map (l : List TeamRecord) (r : TeamRecord) :
    (mapSet l r).map (·.team) =
      if l.any (fun x => x.team = r.team) then l.map (·.team)
      else l.map (·.team) ++ [r.team] := by
  unfold mapSet
  split
  · rw [List.map_map]
    apply List.map_congr_left
    intro x _
    by_cases h : x.team = r.team <;> simp [h]
  · simp

theorem procGame_team_map (recs : List TeamRecord) (g : Game) :
    (procGame recs g).map (·.team) =
      if g.played then
        (recs.map (·.team) ++
          (if recs.any (fun x => x.team = g.winner) then [] else [g.winner])) ++
          (if (recs.map (·.team) ++
              (if recs.any (fun x => x.team = g.winner) then [] else [g.winner])).contains
              g.loser then []
           else [g.loser])
      else recs.map (·.team) := by
  unfold procGame
  by_cases hp : g.played
  · simp only [hp, Bool.not_true, Bool.false_eq_true, if_false, if_true]
    by_cases hw : recs.any (fun x => x.team = g.winner) <;>
      by_cases hl : recs.any (fun x => x.team = g.loser) <;>
      simp only [hw, hl, if_true, Bool.false_eq_true, if_false]
    · -- winner present, loser present
      rw [bumpLoser_team_map, bumpWinner_team_map]
      have hmem : g.loser ∈ recs.map (·.team) := by
        rcases List.any_eq_true.mp hl with ⟨r, hr, hrt⟩
        exact List.mem_map.mpr ⟨r, hr, of_decide_eq_true hrt⟩
      have hc : (recs.map (·.team) ++ ([] : List String)).contains g.loser
          = true := by
        rw [List.contains_eq_any_beq, List.any_eq_true]
        exact ⟨g.loser, by simpa using hmem, by simp⟩
      rw [hc]
      simp
    · -- winner present, loser absent
      have hlnames : g.loser ∉ recs.map (·.team) :=
        any_team_eq_false_iff.mp (by simpa using hl)
      have hany : (bumpWinner recs g.winner).any (fun x => x.team = g.loser)
          = false := by
        rw [any_team_eq_false_iff, bumpWinner_team_map]
        exact hlnames
      rw [mapSet_team_map, hany, bumpWinner_team_map]
      simp only [Bool.false_eq_true, if_false]
      have hnc : (recs.map (·.team) ++ ([] : List String)).contains g.loser
          = false := by
        rw [← Bool.not_eq_true, List.contains_eq_any_beq, List.any_eq_true]
        rintro ⟨x, hx, hxe⟩
        have : g.loser = x := by simpa using hxe
        exact hlnames (by simpa [this] using hx)
      rw [hnc]
      simp
    · -- winner absent, loser present
      rw [bumpLoser_team_map]
      simp only [List.map_append]
      have hmem : g.loser ∈ recs.map (·.team) := by
        rcases List.any_eq_true.mp hl with ⟨r, hr, hrt⟩
        exact List.mem_map.mpr ⟨r, hr, of_decide_eq_true hrt⟩
      have hc : (recs.map (·.team) ++ [g.winner]).contains g.loser = true := by
        rw [List.contains_eq_any_beq, List.any_eq_true]
        exact ⟨g.loser, by simp [hmem], by simp⟩
      rw [hc]
      simp
    · -- winner absent, loser absent
      have hlnames : g.loser ∉ recs.map (·.team) :=
        any_team_eq_false_iff.mp (by simpa using hl)
      rw [mapSet_team_map]
      by_cases hwl : g.loser = g.winner
      · have hany : ((recs ++ [(⟨g.winner, 1, 0, 1, 1⟩ : TeamRecord)]).any
            (fun x => x.team = g.loser)) = true := by
          rw [List.any_eq_true]
          refine ⟨(⟨g.winner, 1, 0, 1, 1⟩ : TeamRecord), by simp, ?_⟩
          simp [hwl]
        rw [hany]
        simp only [if_true, List.map_append]
        have hc : (recs.map (·.team) ++ [g.winner]).contains g.loser = true := by
          rw [List.contains_eq_any_beq, List.any_eq_true]
          exact ⟨g.winner, by simp, by simp [hwl]⟩
        rw [hc]
        simp
      · have hany : ((recs ++ [(⟨g.winner, 1, 0, 1, 1⟩ : TeamRecord)]).any
            (fun x => x.team = g.loser)) = false := by
          rw [← Bool.not_eq_true, List.any_eq_true]
          rintro ⟨r, hr, hrt⟩
          rcases List.mem_append.mp hr with hr | hr
          · exact hlnames
              (List.mem_map.mpr ⟨r, hr, of_decide_eq_true hrt⟩)
          · have : r = (⟨g.winner, 1, 0, 1, 1⟩ : TeamRecord) := by simpa using hr
            subst this
            exact hwl (of_decide_eq_true hrt).symm
        rw [hany]
        simp only [Bool.false_eq_true, if_false, List.map_append]
        have hnc : (recs.map (·.team) ++ [g.winner]).contains g.loser
            = false := by
          rw [← Bool.not_eq_true, List.contains_eq_any_beq, List.any_eq_true]
          rintro ⟨x, hx, hxe⟩
          have hxeq : g.loser = x := by simpa using hxe
          rcases List.mem_append.mp hx with hx | hx
          · exact hlnames (hxeq ▸ hx)
          · have : x = g.winner := by simpa using hx
            exact hwl (by rw [hxeq, this])
        rw [hnc]
        simp
  · simp [hp]

theorem procGame_team_mem_iff (recs : List TeamRecord) (g : Game) (x : String) :
    x ∈ (procGame recs g).map (·.team) ↔
      x ∈ recs.map (·.team) ∨
        (g.played = true ∧ (g.winner = x ∨ g.loser = x)) := by
  rw [procGame_team_map]
  by_cases hp : g.played
  · rw [if_pos hp]
    constructor
    · intro h
      rcases List.mem_append.mp h with h | h
      · rcases List.mem_append.mp h with h | h
        · exact Or.inl h
        · by_cases hw : (recs.any fun r => decide (r.team = g.winner)) = true
          · rw [if_pos hw] at h
            exact absurd h (by simp)
          · rw [if_neg hw] at h
            have : x = g.winner := by simpa using h
            exact Or.inr ⟨hp, Or.inl this.symm⟩
      · by_cases hc : ((recs.map (·.team) ++
            (if (recs.any fun r => decide (r.team = g.winner)) = true then []
             else [g.winner])).contains g.loser) = true
        · rw [if_pos hc] at h
          exact absurd h (by simp)
        · rw [if_neg hc] at h
          have : x = g.loser := by simpa using h
          exact Or.inr ⟨hp, Or.inr this.symm⟩
    · intro h
      rcases h with h | ⟨_, hwl⟩
      · exact List.mem_append.mpr (Or.inl (List.mem_append.mpr (Or.inl h)))
      · rcases hwl with hx | hx
        · subst hx
          apply List.mem_append.mpr
          left
          apply List.mem_append.mpr
          by_cases hw : (recs.any fun r => decide (r.team = g.winner)) = true
          · rcases List.any_eq_true.mp hw with ⟨r, hr, hrt⟩
            exact Or.inl (List.mem_map.mpr ⟨r, hr, of_decide_eq_true hrt⟩)
          · rw [if_neg hw]
            exact Or.inr (by simp)
        · subst hx
          by_cases hc : ((recs.map (·.team) ++
              (if (recs.any fun r => decide (r.team = g.winner)) = true then []
               else [g.winner])).contains g.loser) = true
          · apply List.mem_append.mpr
            left
            rw [List.contains_eq_any_beq, List.any_eq_true] at hc
            rcases hc with ⟨y, hy, hye⟩
            have : g.loser = y := by simpa using hye
            exact this ▸ hy
          · apply List.mem_append.mpr
            right
            rw [if_neg hc]
            simp
  · rw [if_neg hp]
    simp only [Bool.not_eq_true] at hp
    simp [hp]

theorem procGame_team_nodup {recs : List TeamRecord} (g : Game)
    (h : (recs.map (·.team)).Nodup) :
    ((procGame recs g).map (·.team)).Nodup := by
  rw [procGame_team_map]
  by_cases hp : g.played
  · rw [if_pos hp]
    have h1 : ((recs.map (·.team) ++
        (if (recs.any fun r => decide (r.team = g.winner)) = true then []
         else [g.winner]))).Nodup := by
      by_cases hw : (recs.any fun r => decide (r.team = g.winner)) = true
      · rw [if_pos hw]
        simpa using h
      · rw [if_neg hw]
        rw [List.nodup_append]
        refine ⟨h, by simp, ?_⟩
        intro a ha hb
        have : a = g.winner := by simpa using hb
        subst this
        exact any_team_eq_false_iff.mp (by simpa using hw) ha
    by_cases hc : ((recs.map (·.team) ++
        (if (recs.any fun r => decide (r.team = g.winner)) = true then []
         else [g.winner])).contains g.loser) = true
    · rw [if_pos hc]
      simpa using h1
    · rw [if_neg hc]
      rw [List.nodup_append]
      refine ⟨h1, by simp, ?_⟩
      intro a ha hb
      have : a = g.loser := by simpa using hb
      subst this
      apply hc
      rw [List.contains_eq_any_beq, List.any_eq_true]
      exact ⟨g.loser, ha, by simp⟩
  · rw [if_neg hp]
    exact h

theorem bumpWinner_mem {l : List TeamRecord} {t : String} {r' : TeamRecord}
    (h : r' ∈ bumpWinner l t) : r' ∈ l ∨ r'.team = t := by
  rcases List.mem_map.mp h with ⟨r, hr, heq⟩
  by_cases hrt : r.team = t
  · right
    rw [← heq]
    simp [hrt]
  · left
    rw [← heq]
    simpa [hrt] using hr

theorem bumpLoser_mem {l : List TeamRecord} {t : String} {r' : TeamRecord}
    (h : r' ∈ bumpLoser l t) : r' ∈ l ∨ r'.team = t := by
  rcases List.mem_map.mp h with ⟨r, hr, heq⟩
  by_cases hrt : r.team = t
  · right
    rw [← heq]
    simp [hrt]
  · left
    rw [← heq]
    simpa [hrt] using hr

theorem mapSet_mem {l : List TeamRecord} {rec r' : TeamRecord}
    (h : r' ∈ mapSet l rec) : r' ∈ l ∨ r'.team = rec.team := by
  unfold mapSet at h
  split at h
  · rcases List.mem_map.mp h with ⟨x, hx, heq⟩
    by_cases hxt : x.team = rec.team
    · right
      rw [← heq]
      simp [hxt]
    · left
      rw [← heq]
      simpa [hxt] using hx
  · rcases List.mem_append.mp h with h | h
    · exact Or.inl h
    · right
      have : r' = rec := by simpa using h
      rw [this]

theorem procGame_mem_untouched {recs : List TeamRecord} {g : Game}
    {r' : TeamRecord} (h : r' ∈ procGame recs g) :
    r' ∈ recs ∨ (g.played = true ∧ (r'.team = g.winner ∨ r'.team = g.loser)) := by
  unfold procGame at h
  by_cases hp : g.played
  · simp only [hp, Bool.not_true, Bool.false_eq_true, if_false] at h
    have step1 : ∀ {x : TeamRecord},
        x ∈ (if recs.any (fun r => r.team = g.winner) then
              bumpWinner recs g.winner
            else recs ++ [(⟨g.winner, 1, 0, 1, 1⟩ : TeamRecord)]) →
        x ∈ recs ∨ x.team = g.winner := by
      intro x hx
      revert hx
      split
      · exact fun hx => bumpWinner_mem hx
      · intro hx
        rcases List.mem_append.mp hx with hx | hx
        · exact Or.inl hx
        · right
          have : x = (⟨g.winner, 1, 0, 1, 1⟩ : TeamRecord) := by simpa using hx
          rw [this]
    revert h
    split
    · intro h
      rcases bumpLoser_mem h with h | h
      · rcases step1 h with h | h
        · exact Or.inl h
        · exact Or.inr ⟨hp, Or.inl h⟩
      · exact Or.inr ⟨hp, Or.inr h⟩
    · intro h
      rcases mapSet_mem h with h | h
      · rcases step1 h with h | h
        · exact Or.inl h
        · exact Or.inr ⟨hp, Or.inl h⟩
      · exact Or.inr ⟨hp, Or.inr h⟩
  · simp only [hp] at h
    simp at h
    exact Or.inl h

/-! Fold-level invariants of the `games.forEach` accumulation. -/

theorem foldl_procGame_nodup :
    ∀ (gs : List Game) (recs : List TeamRecord),
      (recs.map (·.team)).Nodup → ((gs.foldl procGame recs).map (·.team)).Nodup := by
  intro gs
  induction gs with
  | nil => exact fun recs h => h
  | cons g gs ih =>
    intro recs h
    rw [List.foldl_cons]
    exact ih _ (procGame_team_nodup g h)

theorem foldl_procGame_mem_iff :
    ∀ (gs : List Game) (recs : List TeamRecord) (x : String),
      x ∈ (gs.foldl procGame recs).map (·.team) ↔
        x ∈ recs.map (·.team) ∨
          ∃ g ∈ gs, g.played = true ∧ (g.winner = x ∨ g.loser = x) := by
  intro gs
  induction gs with
  | nil => simp
  | cons g gs ih =>
    intro recs x
    rw [List.foldl_cons, ih, procGame_team_mem_iff]
    simp only [List.mem_cons]
    constructor
    · rintro ((h | h) | ⟨g', hg', h⟩)
      · exact Or.inl h
      · exact Or.inr ⟨g, Or.inl rfl, h⟩
      · exact Or.inr ⟨g', Or.inr hg', h⟩
    · rintro (h | ⟨g', hg' | hg', h⟩)
      · exact Or.inl (Or.inl h)
      · exact Or.inl (Or.inr (hg' ▸ h))
      · exact Or.inr ⟨g', hg', h⟩

theorem foldl_procGame_untouched :
    ∀ (gs : List Game) (recs : List TeamRecord) (r' : TeamRecord),
      r' ∈ gs.foldl procGame recs →
      r' ∈ recs ∨ ∃ g ∈ gs, g.played = true ∧
        (r'.team = g.winner ∨ r'.team = g.loser) := by
  intro gs
  induction gs with
  | nil => exact fun recs r' h => Or.inl h
  | cons g gs ih =>
    intro recs r' h
    rw [List.foldl_cons] at h
    rcases ih _ _ h with h' | ⟨g', hg', hgp⟩
    · rcases procGame_mem_untouched h' with h'' | h''
      · exact Or.inl h''
      · exact Or.inr ⟨g, by simp, h''⟩
    · exact Or.inr ⟨g', List.mem_cons_of_mem _ hg', hgp⟩

theorem foldl_procGame_filter_played :
    ∀ (gs : List Game) (recs : List TeamRecord),
      gs.foldl procGame recs = (gs.filter (·.played)).foldl procGame recs := by
  intro gs
  induction gs with
  | nil => intro recs; rfl
  | cons g gs ih =>
    intro recs
    rw [List.foldl_cons, List.filter_cons]
    by_cases hp : g.played
    · rw [if_pos (by simpa using hp), List.foldl_cons]
      exact ih _
    · have : procGame recs g = recs := by
        unfold procGame
        simp only [Bool.not_eq_true] at hp
        simp [hp]
      rw [this, if_neg (by simpa using hp)]
      exact ih _

/-- C8: `computeStandings` is a pure function of its input Conference (a
total Lean function by construction) returning one record per team name
appearing in the team list or in any played game; a team appearing in no
played game keeps the zero-zero record; only games with `played = true`
are counted (dropping unplayed games does not change the output); and the
returned list is sorted by win fraction descending with ties broken by team
name ascending. -/
theorem computeStandings_spec (conf : ConferenceData) :
    ((computeStandings conf).map (·.team)).Nodup ∧
    (∀ t : String, t ∈ (computeStandings conf).map (·.team) ↔
      (t ∈ conf.teams ∨
        ∃ g ∈ conf.games, g.played = true ∧ (g.winner = t ∨ g.loser = t))) ∧
    (∀ r ∈ computeStandings conf,
      (∀ g ∈ conf.games, g.played = true →
        g.winner ≠ r.team ∧ g.loser ≠ r.team) →
      r = zeroRecord r.team) ∧
    computeStandings conf =
      computeStandings { conf with games := conf.games.filter (·.played) } ∧
    (computeStandings conf).Sorted standingsRel := by
  have hinitnames : (((insertionDedup conf.teams).map zeroRecord).map (·.team))
      = insertionDedup conf.teams := by
    rw [List.map_map]
    rw [show ((fun r : TeamRecord => r.team) ∘ zeroRecord) = id from rfl,
      List.map_id]
  have hperm : (computeStandings conf).Perm
      (conf.games.foldl procGame ((insertionDedup conf.teams).map zeroRecord)) :=
    List.perm_insertionSort _ _
  refine ⟨?_, ?_, ?_, ?_, ?_⟩
  · rw [List.Perm.nodup_iff (hperm.map (·.team))]
    apply foldl_procGame_nodup
    rw [hinitnames]
    exact insertionDedup_nodup conf.teams
  · intro t
    rw [(hperm.map (·.team)).mem_iff, foldl_procGame_mem_iff, hinitnames,
      insertionDedup_mem_iff]
  · intro r hr huntouched
    have hr' := hperm.mem_iff.mp hr
    rcases foldl_procGame_untouched conf.games _ r hr' with h | ⟨g, hg, hp, hteam⟩
    · rcases List.mem_map.mp h with ⟨t, _, heq⟩
      rw [← heq]
      rfl
    · rcases hteam with h' | h'
      · exact absurd h'.symm ((huntouched g hg hp).1)
      · exact absurd h'.symm ((huntouched g hg hp).2)
  · show List.insertionSort _ _ = List.insertionSort _ _
    rw [foldl_procGame_filter_played]
  · haveI : IsTotal TeamRecord standingsRel := ⟨standingsRel_total⟩
    haveI : IsTrans TeamRecord standingsRel :=
      ⟨fun _ _ _ h1 h2 => standingsRel_trans h1 h2⟩
    exact List.sorted_insertionSort standingsRel _

/-! ## Scenario enumerator lemmas -/

theorem applyMask_snd (unplayed : List Game) (mask : Nat) (clone : List Game) :
    (applyMask unplayed mask clone).2 =
      unplayed.enum.map (fun p => mask.testBit p.1) := by
  unfold applyMask
  suffices H : ∀ (ps : List (Nat × Game)) (gs : List Game) (bs : List Bool),
      ((ps.foldl (maskStep mask) (gs, bs)).2) =
        bs ++ ps.map (fun p => mask.testBit p.1) by
    simpa using H unplayed.enum clone []
  intro ps
  induction ps with
  | nil => intro gs bs; simp
  | cons p ps ih =>
    intro gs bs
    rw [List.foldl_cons]
    have hstep : maskStep mask (gs, bs) p =
        ((maskStep mask (gs, bs) p).1, bs ++ [mask.testBit p.1]) := rfl
    rw [hstep, ih]
    simp

theorem scenarioOfMask_gameResults (rand : RandFun) (conf : ConferenceData)
    (unplayed : List Game) (mask : Nat) :
    (scenarioOfMask rand conf unplayed mask).gameResults =
      (List.range unplayed.length).map (fun i => mask.testBit i) := by
  unfold scenarioOfMask
  dsimp only
  rw [applyMask_snd]
  rw [show (fun p : Nat × Game => mask.testBit p.1) =
    ((fun i => mask.testBit i) ∘ Prod.fst) from rfl]
  rw [← List.map_map, List.enum_map_fst]

theorem bits_inj {n j k : Nat} (hj : j < 2 ^ n) (hk : k < 2 ^ n)
    (h : (List.range n).map (fun i => Nat.testBit j i) =
         (List.range n).map (fun i => Nat.testBit k i)) : j = k := by
  apply Nat.eq_of_testBit_eq
  intro i
  by_cases hi : i < n
  · have h1 : ((List.range n).map (fun i => Nat.testBit j i)).get? i =
        ((List.range n).map (fun i => Nat.testBit k i)).get? i := by rw [h]
    rw [List.get?_map, List.get?_map, List.get?_range hi] at h1
    simpa using h1
  · have hn : n ≤ i := Nat.le_of_not_lt hi
    have hpow : (2 : Nat) ^ n ≤ 2 ^ i := Nat.pow_le_pow_right (by omega) hn
    rw [Nat.testBit_lt_two_pow (Nat.lt_of_lt_of_le hj hpow),
      Nat.testBit_lt_two_pow (Nat.lt_of_lt_of_le hk hpow)]

/-- C3: with `n` unplayed games, `1 ≤ n ≤` the cap, the enumerator returns
exactly `2^n` scenarios; the scenario at list index `k` has outcome vector
equal to the binary digits of `k` (bit `i` true = the first named participant
of unplayed game `i` wins), so the list is in the numeric order of the
outcome vectors; and all outcome vectors are distinct. -/
theorem simulate_enumerates (rand : RandFun) (maxSimulation : Nat)
    (conf : ConferenceData)
    (h1 : 1 ≤ (getUnplayedGames conf).length)
    (h2 : (getUnplayedGames conf).length ≤ maxSimulation) :
    (simulateConference rand maxSimulation conf).length =
      2 ^ (getUnplayedGames conf).length ∧
    (∀ k (hk : k < (simulateConference rand maxSimulation conf).length),
      ((simulateConference rand maxSimulation conf).get ⟨k, hk⟩).gameResults =
        (List.range (getUnplayedGames conf).length).map
          (fun i => Nat.testBit k i)) ∧
    ((simulateConference rand maxSimulation conf).map (·.gameResults)).Nodup := by
  have hsim : simulateConference rand maxSimulation conf =
      (List.range (2 ^ (getUnplayedGames conf).length)).map
        (scenarioOfMask rand conf (getUnplayedGames conf)) := by
    unfold simulateConference
    dsimp only
    rw [if_neg (by omega), if_neg (by omega)]
  refine ⟨by rw [hsim]; simp, ?_, ?_⟩
  · intro k hk
    rw [List.get_of_eq hsim ⟨k, hk⟩]
    rw [List.get_map]
    rw [scenarioOfMask_gameResults]
    congr 1
    simp [List.get_range]
  · rw [hsim]
    rw [List.map_map]
    have : (Scenario.gameResults ∘ scenarioOfMask rand conf (getUnplayedGames conf)) =
        fun mask => (List.range (getUnplayedGames conf).length).map
          (fun i => Nat.testBit mask i) := by
      funext mask
      exact scenarioOfMask_gameResults rand conf (getUnplayedGames conf) mask
    rw [this]
    apply List.Nodup.map_on ?_ (List.nodup_range _)
    intro j hj k hk hjk
    exact bits_inj (List.mem_range.mp hj) (List.mem_range.mp hk) hjk

/-- Witness for C3 at a concrete conference with one unplayed game. -/
theorem simulate_enumerates_witness :
    1 ≤ (getUnplayedGames confU).length ∧
    (getUnplayedGames confU).length ≤ 25 ∧
    ((simulateConference rand0 25 confU).length =
      2 ^ (getUnplayedGames confU).length ∧
    (∀ k (hk : k < (simulateConference rand0 25 confU).length),
      ((simulateConference rand0 25 confU).get ⟨k, hk⟩).gameResults =
        (List.range (getUnplayedGames confU).length).map
          (fun i => Nat.testBit k i)) ∧
    ((simulateConference rand0 25 confU).map (·.gameResults)).Nodup) :=
  ⟨by decide, by decide, simulate_enumerates rand0 25 confU (by decide) (by decide)⟩

/-- C1 (amended): with zero unplayed games the enumerator returns exactly one
scenario, whose `finalStandings` are the Standings Calculator's raw output —
no tie resolution is applied in this branch — with `topTwo` its first two
entries, an empty outcome vector, and no rule trace. -/
theorem simulate_no_unplayed (rand : RandFun) (maxSimulation : Nat)
    (conf : ConferenceData) (h : (getUnplayedGames conf).length = 0) :
    simulateConference rand maxSimulation conf =
      [{ gameResults := [], finalStandings := computeStandings conf,
         topTwo := ((computeStandings conf).take 2).map (·.team),
         appliedTieRules := none }] := by
  unfold simulateConference
  dsimp only
  rw [if_pos h]

/-- Witness for the amended C1. -/
theorem simulate_no_unplayed_witness :
    (getUnplayedGames confT).length = 0 ∧
    simulateConference rand0 25 confT =
      [{ gameResults := [], finalStandings := computeStandings confT,
         topTwo := ((computeStandings confT).take 2).map (·.team),
         appliedTieRules := none }] :=
  ⟨by decide, simulate_no_unplayed rand0 25 confT (by decide)⟩

/-- C1 counterexample: `confT` has zero unplayed games and a tied pair
{A, B} with a head-to-head result, yet the single returned scenario's
standings are not the tie-resolved standings (the same resolution pass
`resolveTies` the enumerator applies to fully-played schedules): the
resolver would order B before A. -/
theorem simulate_no_unplayed_counterexample :
    (getUnplayedGames confT).length = 0 ∧
    (simulateConference rand0 25 confT).map (·.finalStandings) ≠
      [(resolveTies confT.name confT.games (computeStandings confT) rand0
          (computeStandings confT).length (computeStandings confT)).1] := by
  decide

/-- C7: an unplayed-game count above the cap makes the enumerator refuse
with an empty scenario list (not an error), and a team that is top-two in no
scenario gets empty condition collections with `top2Count = 0` (not an
error). -/
theorem simulate_overcap_analyze_zero (rand : RandFun) (maxSimulation : Nat)
    (conf : ConferenceData) (team : String) (allScenarios : List Scenario)
    (unplayedGames : List Game)
    (hcap : maxSimulation < (getUnplayedGames conf).length)
    (hzero : (allScenarios.filter fun sc => sc.topTwo.contains team).length = 0) :
    simulateConference rand maxSimulation conf = [] ∧
    analyzeTeamRequirements team allScenarios unplayedGames =
      ⟨team, allScenarios.length, 0, [], []⟩ := by
  constructor
  · unfold simulateConference
    dsimp only
    rw [if_neg (by omega), if_pos (by omega)]
  · unfold analyzeTeamRequirements
    dsimp only
    rw [if_pos hzero]

/-- Witness for C7. -/
theorem simulate_overcap_analyze_zero_witness :
    0 < (getUnplayedGames confU).length ∧
    ((rematchScenarios.filter fun sc => sc.topTwo.contains "Z").length = 0) ∧
    (simulateConference rand0 0 confU = [] ∧
     analyzeTeamRequirements "Z" rematchScenarios rematchGames =
       ⟨"Z", rematchScenarios.length, 0, [], []⟩) :=
  ⟨by decide, by decide,
   simulate_overcap_analyze_zero rand0 0 confU "Z" rematchScenarios
     rematchGames (by decide) (by decide)⟩

/-- C9: the enumeration never alters the source conference. In the
state-passing rendering `simulateConferenceSt`, which threads the source
`ConferenceData` through the loop while every write targets the per-mask
clone, the source conference comes back unchanged and the scenarios are the
ones `simulateConference` computes from the derived copies. -/
theorem simulateConferenceSt_frame (rand : RandFun) (maxSimulation : Nat)
    (conf : ConferenceData) :
    (simulateConferenceSt rand maxSimulation conf).2 = conf ∧
    (simulateConferenceSt rand maxSimulation conf).1 =
      simulateConference rand maxSimulation conf := by
  unfold simulateConferenceSt simulateConference
  dsimp only
  by_cases h0 : (getUnplayedGames conf).length = 0
  · rw [if_pos h0, if_pos h0]
    exact ⟨rfl, rfl⟩
  · rw [if_neg h0, if_neg h0]
    by_cases hcap : (getUnplayedGames conf).length > maxSimulation
    · rw [if_pos hcap, if_pos hcap]
      exact ⟨rfl, rfl⟩
    · rw [if_neg hcap, if_neg hcap]
      have key : ∀ (ms : List Nat) (acc : List Scenario),
          (ms.foldl (fun acc mask =>
            (acc.1 ++ [scenarioOfMask rand acc.2 (getUnplayedGames conf) mask],
             acc.2)) (acc, conf)) =
          (acc ++ ms.map (scenarioOfMask rand conf (getUnplayedGames conf)),
           conf) := by
        intro ms
        induction ms with
        | nil => intro acc; simp
        | cons m ms ih =>
          intro acc
          rw [List.foldl_cons, List.map_cons]
          have := ih (acc ++ [scenarioOfMask rand conf (getUnplayedGames conf) m])
          simpa [List.append_assoc] using this
      rw [key (List.range (2 ^ (getUnplayedGames conf).length)) []]
      exact ⟨rfl, by simp⟩

/-- C4 failing-input evaluation: in scenario 0 of `confG`, A and B have the
same computed win fraction (1/2) but different win counts (1 vs 2), so the
enumerator — which groups consecutive standings rows by equal `confWins`,
not by win fraction — never hands the tied pair {A, B} to the resolver
(which orders B first via the head-to-head rule); instead it groups and
"resolves" {D, G, A}, whose fractions differ, producing a ranked list with
A above both G (fraction 1) and B. -/
theorem simulate_confWins_grouping_bug :
    (computeStandings confG0).map (fun r => (r.team, r.confWins, pct r)) =
      [("D", 1, mkRat 1 1), ("G", 1, mkRat 1 1), ("A", 1, mkRat 1 2),
       ("B", 2, mkRat 1 2), ("C", 1, mkRat 1 3), ("E", 0, mkRat 0 1),
       ("F", 0, mkRat 0 1)] ∧
    (applyTieBreakers "ACC" ["A", "B"] confG0.games
      (computeStandings confG0) rand0).order = ["B", "A"] ∧
    ((simulateConference rand0 25 confG).map
      (fun s => s.finalStandings.map (·.team))).getD 0 [] =
      ["D", "A", "G", "B", "C", "F", "E"] := by
  decide

/-! ## Condition analyzer lemmas (C5, C6) -/

theorem mem_dedupBySigAux {c : Condition} :
    ∀ {seen : List (List String)} {l : List Condition},
      c ∈ dedupBySigAux seen l → c ∈ l := by
  intro seen l
  induction l generalizing seen with
  | nil => intro h; exact absurd h (by simp [dedupBySigAux])
  | cons a t ih =>
    intro h
    rw [dedupBySigAux] at h
    split at h
    · exact List.mem_cons_of_mem _ (ih h)
    · rcases List.mem_cons.mp h with h | h
      · exact h ▸ List.mem_cons_self _ _
      · exact List.mem_cons_of_mem _ (ih h)

theorem dedupBySigAux_rep {c : Condition} :
    ∀ {seen : List (List String)} {l : List Condition},
      c ∈ l → sigOf c ∈ seen ∨
        ∃ c' ∈ dedupBySigAux seen l, sigOf c' = sigOf c := by
  intro seen l
  induction l generalizing seen with
  | nil => intro h; exact absurd h (List.not_mem_nil c)
  | cons a t ih =>
    intro h
    rw [dedupBySigAux]
    rcases List.mem_cons.mp h with rfl | h
    · split
      · rename_i hseen
        exact Or.inl hseen
      · exact Or.inr ⟨c, List.mem_cons_self _ _, rfl⟩
    · split
      · rename_i hseen
        rcases ih h with h' | ⟨c', hc', hs⟩
        · exact Or.inl h'
        · exact Or.inr ⟨c', hc', hs⟩
      · rcases @ih (sigOf a :: seen) h with h' | ⟨c', hc', hs⟩
        · rcases List.mem_cons.mp h' with h' | h'
          · exact Or.inr ⟨a, List.mem_cons_self _ _, h'.symm⟩
          · exact Or.inl h'
        · exact Or.inr ⟨c', List.mem_cons_of_mem _ hc', hs⟩

/-- Every condition in the deduplicated list has a same-signature
representative, and dedup only removes elements. -/
theorem dedupBySig_mem {c : Condition} {l : List Condition}
    (h : c ∈ dedupBySig l) : c ∈ l := mem_dedupBySigAux h

theorem dedupBySig_rep {c : Condition} {l : List Condition} (h : c ∈ l) :
    ∃ c' ∈ dedupBySig l, sigOf c' = sigOf c := by
  rcases @dedupBySigAux_rep c [] l h with h' | h'
  · exact absurd h' (List.not_mem_nil _)
  · exact h'

theorem mem_patternMatchesOf {scs : List Scenario} {indices : List Nat}
    {pattern idx : Nat} :
    idx ∈ patternMatchesOf scs indices pattern ↔
      ∃ sc, scs.get? idx = some sc ∧
        (indices.enum.all fun q =>
          sc.gameResults.get? q.2 == some (pattern.testBit q.1)) = true := by
  unfold patternMatchesOf
  rw [List.mem_map]
  constructor
  · rintro ⟨p, hp, rfl⟩
    rw [List.mem_filter] at hp
    exact ⟨p.2, List.mem_enum_iff_get?.mp hp.1, hp.2⟩
  · rintro ⟨sc, hsc, hall⟩
    exact ⟨(idx, sc),
      List.mem_filter.mpr ⟨List.mk_mem_enum_iff_get?.mpr hsc, hall⟩, rfl⟩

theorem patternMatchesOf_sublist (scs : List Scenario) (indices : List Nat)
    (pattern : Nat) :
    (patternMatchesOf scs indices pattern).Sublist
      (List.range scs.length) := by
  unfold patternMatchesOf
  have h1 := (List.filter_sublist (l := scs.enum)
    (p := fun p => indices.enum.all fun q =>
      p.2.gameResults.get? q.2 == some (pattern.testBit q.1))).map Prod.fst
  rw [List.enum_map_fst] at h1
  exact h1

theorem patternMatchesOf_nodup (scs : List Scenario) (indices : List Nat)
    (pattern : Nat) : (patternMatchesOf scs indices pattern).Nodup :=
  (List.nodup_range _).sublist (patternMatchesOf_sublist scs indices pattern)

theorem mem_genCombosFrom {n : Nat} :
    ∀ (k start : Nat) (ix : List Nat),
      ix ∈ genCombosFrom n start k ↔
        ix.length = k ∧ ix.Pairwise (· < ·) ∧ ∀ i ∈ ix, start ≤ i ∧ i < n := by
  intro k
  induction k with
  | zero =>
    intro start ix
    rw [genCombosFrom]
    simp only [List.mem_singleton]
    constructor
    · rintro rfl
      simp
    · rintro ⟨hlen, _, _⟩
      exact List.length_eq_zero.mp hlen
  | succ m ih =>
    intro start ix
    rw [genCombosFrom]
    rw [List.mem_flatMap]
    constructor
    · rintro ⟨i, hi, hix⟩
      rw [List.mem_map] at hix
      obtain ⟨rest, hrest, rfl⟩ := hix
      rw [List.mem_range'_1] at hi
      obtain ⟨hlen, hpw, hbound⟩ := (ih (i + 1) rest).mp hrest
      refine ⟨by simp [hlen], ?_, ?_⟩
      · rw [List.pairwise_cons]
        exact ⟨fun j hj => by have := (hbound j hj).1; omega, hpw⟩
      · intro j hj
        rcases List.mem_cons.mp hj with rfl | hj
        · omega
        · have := hbound j hj
          omega
    · rintro ⟨hlen, hpw, hbound⟩
      cases ix with
      | nil => simp at hlen
      | cons i rest =>
        refine ⟨i, ?_, List.mem_map.mpr ⟨rest, ?_, rfl⟩⟩
        · rw [List.mem_range'_1]
          have := hbound i (List.mem_cons_self _ _)
          omega
        · rw [ih]
          refine ⟨by simpa using hlen, (List.pairwise_cons.mp hpw).2, ?_⟩
          intro j hj
          have h1 := (List.pairwise_cons.mp hpw).1 j hj
          have h2 := hbound j (List.mem_cons_of_mem _ hj)
          omega

theorem mem_generateCombinations {n k : Nat} {ix : List Nat} :
    ix ∈ generateCombinations n k ↔
      ix.length = k ∧ ix.Pairwise (· < ·) ∧ ∀ i ∈ ix, i < n := by
  rw [generateCombinations, mem_genCombosFrom]
  constructor
  · rintro ⟨h1, h2, h3⟩
    exact ⟨h1, h2, fun i hi => (h3 i hi).2⟩
  · rintro ⟨h1, h2, h3⟩
    exact ⟨h1, h2, fun i hi => ⟨Nat.zero_le i, h3 i hi⟩⟩

theorem range_mem_generateCombinations (n : Nat) :
    List.range n ∈ generateCombinations n n := by
  rw [mem_generateCombinations]
  exact ⟨List.length_range n, List.pairwise_lt_range n,
    fun i hi => List.mem_range.mp hi⟩

theorem findConditionsCore_eq (want : Bool) (scs : List Scenario)
    (unplayed : List Game) (team : String) :
    findConditionsCore want scs unplayed team =
      (coverageFilter (condMinimal want scs unplayed team)).map
        (targetFirst team) := rfl

theorem mem_findConditionsOfSizeCore {want : Bool} {scs : List Scenario}
    {unplayed : List Game} {team : String} {size : Nat} {c : Condition} :
    c ∈ findConditionsOfSizeCore want scs unplayed team size ↔
      ∃ indices pattern,
        indices ∈ generateCombinations unplayed.length size ∧
        pattern ∈ List.range (2 ^ size) ∧
        patternMatchesOf scs indices pattern ≠ [] ∧
        (∀ idx ∈ patternMatchesOf scs indices pattern,
          ((scs.getD idx dummyScenario).topTwo.contains team) = want) ∧
        c = ⟨mkOutcomes unplayed indices pattern,
             (patternMatchesOf scs indices pattern).length,
             patternMatchesOf scs indices pattern⟩ := by
  unfold findConditionsOfSizeCore
  rw [List.mem_flatMap]
  constructor
  · rintro ⟨indices, hix, hc⟩
    rw [List.mem_filterMap] at hc
    obtain ⟨pattern, hpat, hsome⟩ := hc
    dsimp only at hsome
    split at hsome
    · rename_i hcond
      exact ⟨indices, pattern, hix, hpat, hcond.1, hcond.2,
        (Option.some.inj hsome).symm⟩
    · exact absurd hsome (by simp)
  · rintro ⟨indices, pattern, hix, hpat, h1, h2, rfl⟩
    refine ⟨indices, hix, List.mem_filterMap.mpr ⟨pattern, hpat, ?_⟩⟩
    dsimp only
    rw [if_pos ⟨h1, h2⟩]

/-- Every member of the `unique` stage is a recorded candidate: its outcomes
come from `mkOutcomes` on a strictly increasing in-range index tuple, its
`scenarioIndices` are exactly the matching scenario indices, and the polarity
condition holds on all of them. -/
theorem mem_condUnique_shape {want : Bool} {scs : List Scenario}
    {unplayed : List Game} {team : String} {c₀ : Condition}
    (h : c₀ ∈ condUnique want scs unplayed team) :
    ∃ indices pattern,
      indices.Pairwise (· < ·) ∧
      (∀ i ∈ indices, i < unplayed.length) ∧
      patternMatchesOf scs indices pattern ≠ [] ∧
      (∀ idx ∈ patternMatchesOf scs indices pattern,
        ((scs.getD idx dummyScenario).topTwo.contains team) = want) ∧
      c₀ = ⟨mkOutcomes unplayed indices pattern,
            (patternMatchesOf scs indices pattern).length,
            patternMatchesOf scs indices pattern⟩ := by
  unfold condUnique at h
  have h1 := dedupBySig_mem h
  have h2 := (List.perm_insertionSort condLE _).mem_iff.mp h1
  unfold condCandidates at h2
  rw [List.mem_flatMap] at h2
  obtain ⟨size, _, hc⟩ := h2
  obtain ⟨ix, pat, hix, _, hne, hw, rfl⟩ := mem_findConditionsOfSizeCore.mp hc
  obtain ⟨-, hpw, hbd⟩ := mem_generateCombinations.mp hix
  exact ⟨ix, pat, hpw, hbd, hne, hw, rfl⟩

/-- Every returned condition is `targetFirst` of a member of the `minimal`
stage that survived the coverage filter. -/
theorem mem_findConditionsCore_decomp {want : Bool} {scs : List Scenario}
    {unplayed : List Game} {team : String} {c : Condition}
    (h : c ∈ findConditionsCore want scs unplayed team) :
    ∃ c₀ ∈ condMinimal want scs unplayed team,
      c₀ ∈ coverageFilter (condMinimal want scs unplayed team) ∧
      c = targetFirst team c₀ := by
  rw [findConditionsCore_eq, List.mem_map] at h
  obtain ⟨c₀, hc₀, rfl⟩ := h
  exact ⟨c₀, (List.mem_filter.mp hc₀).1, hc₀, rfl⟩

theorem nodup_mem_singleton {l : List Nat} {k : Nat} (hnd : l.Nodup)
    (hk : k ∈ l) (hall : ∀ j ∈ l, j = k) : l = [k] := by
  cases l with
  | nil => exact absurd hk (List.not_mem_nil k)
  | cons a t =>
    have ha : a = k := hall a (List.mem_cons_self _ _)
    subst ha
    cases t with
    | nil => rfl
    | cons b u =>
      have hb : b = a := hall b (List.mem_cons_of_mem _ (List.mem_cons_self _ _))
      subst hb
      exact absurd (List.mem_cons_self _ _) ((List.nodup_cons.mp hnd).1 ∘ id)

theorem mem_enum_fst_lt {α : Type} {l : List α} {q : Nat × α}
    (h : q ∈ l.enum) : q.1 < l.length ∧ l.get? q.1 = some q.2 := by
  have h1 := List.mem_enum_iff_get?.mp h
  exact ⟨(List.get?_eq_some.mp h1).1, h1⟩

theorem enum_range_mem {n : Nat} {q : Nat × Nat}
    (h : q ∈ (List.range n).enum) : q.1 < n ∧ q.2 = q.1 := by
  obtain ⟨hlt, hget⟩ := mem_enum_fst_lt h
  rw [List.length_range] at hlt
  rw [List.get?_range hlt] at hget
  exact ⟨hlt, (Option.some.inj hget).symm⟩

/-- The dedup signature of a candidate, componentwise. -/
theorem sig_mkOutcomes (unplayed : List Game) (ix : List Nat) (pat : Nat) :
    (mkOutcomes unplayed ix pat).map (fun o => o.winner ++ "-" ++ o.loser) =
      ix.enum.map fun q =>
        outStr (unplayed.getD q.2 dummyGame) (pat.testBit q.1) := by
  unfold mkOutcomes outStr
  rw [List.map_map]
  apply List.map_congr_left
  intro q _
  dsimp only
  by_cases hbit : pat.testBit q.1 <;> simp [hbit]

/-- Inside a recorded candidate the loser of each outcome is determined by
the game and the winner. -/
theorem mkOutcomes_loser {unplayed : List Game} {ix : List Nat} {pat : Nat}
    {o : GameOutcome} (h : o ∈ mkOutcomes unplayed ix pat) :
    o.loser = if o.winner = o.game.winner then o.game.loser
              else o.game.winner := by
  unfold mkOutcomes at h
  rw [List.mem_map] at h
  obtain ⟨q, _, rfl⟩ := h
  dsimp only
  split
  · simp
  · dsimp only
    by_cases hg : (unplayed.getD q.2 dummyGame).loser =
        (unplayed.getD q.2 dummyGame).winner
    · rw [if_pos hg, hg]
    · rw [if_neg hg]

/-- Two outcomes of recorded candidates with the same game and winner are
equal. -/
theorem candidate_pairs_determine {unplayed : List Game}
    {ixa ixb : List Nat} {pa pb : Nat} {o o' : GameOutcome}
    (ho : o ∈ mkOutcomes unplayed ixb pb)
    (ho' : o' ∈ mkOutcomes unplayed ixa pa)
    (hg : o.game = o'.game) (hw : o.winner = o'.winner) : o = o' := by
  have h1 := mkOutcomes_loser ho
  have h2 := mkOutcomes_loser ho'
  obtain ⟨g, w, l⟩ := o
  obtain ⟨g', w', l'⟩ := o'
  dsimp only at h1 h2 hg hw
  subst hg hw
  rw [h1, h2]

theorem mkOutcomes_map_game (unplayed : List Game) (ix : List Nat)
    (pat : Nat) :
    (mkOutcomes unplayed ix pat).map (fun o => o.game) =
      ix.map fun i => unplayed.getD i dummyGame := by
  unfold mkOutcomes
  rw [List.map_map]
  conv_rhs => rw [← List.enum_map_snd ix, List.map_map]
  apply List.map_congr_left
  intro q _
  simp only [Function.comp_apply]
  split <;> rfl

/-- With distinct unplayed games and distinct in-range indices, the
(game, winner) pairs of a recorded candidate are distinct. -/
theorem mkOutcomes_pairs_nodup {unplayed : List Game} {ix : List Nat}
    {pat : Nat} (hnd : unplayed.Nodup) (hpw : ix.Pairwise (· < ·))
    (hbd : ∀ i ∈ ix, i < unplayed.length) :
    ((mkOutcomes unplayed ix pat).map fun o => (o.game, o.winner)).Nodup := by
  apply List.Nodup.of_map Prod.fst
  rw [List.map_map]
  have hgames : ((mkOutcomes unplayed ix pat).map
      (Prod.fst ∘ fun o => (o.game, o.winner))) =
      ix.map fun i => unplayed.getD i dummyGame := mkOutcomes_map_game _ _ _
  rw [hgames]
  have hixnd : ix.Nodup := List.Pairwise.imp (fun h => Nat.ne_of_lt h) hpw
  apply List.Nodup.map_on _ hixnd
  intro i hi j hj hij
  have hi' : i < unplayed.length := hbd i hi
  have hj' : j < unplayed.length := hbd j hj
  rw [List.getD_eq_getElem unplayed dummyGame hi',
      List.getD_eq_getElem unplayed dummyGame hj'] at hij
  exact (List.Nodup.getElem_inj_iff hnd).mp hij

theorem targetFirst_pairs (t : String) (c : Condition) :
    ((targetFirst t c).outcomes.map fun o => (o.game, o.winner)).toFinset =
      (c.outcomes.map fun o => (o.game, o.winner)).toFinset := by
  unfold targetFirst
  dsimp only
  have hp := (List.perm_insertionSort
    (fun a b => (hasTarget t a || !(hasTarget t b)) = true) c.outcomes).map
    (fun o => (o.game, o.winner))
  exact List.toFinset_eq_of_perm _ _ hp

theorem targetFirst_scenarioIndices (t : String) (c : Condition) :
    (targetFirst t c).scenarioIndices = c.scenarioIndices := rfl

theorem mem_condMinimal {want : Bool} {scs : List Scenario}
    {unplayed : List Game} {team : String} {c : Condition} :
    c ∈ condMinimal want scs unplayed team ↔
      c ∈ condUnique want scs unplayed team ∧
      (!((condUnique want scs unplayed team).any fun condB =>
        condB.outcomes.length < c.outcomes.length &&
        (sigOf condB).all (fun s => (sigOf c).contains s))) = true := by
  unfold condMinimal subsetFilter
  exact List.mem_filter

/-- Shared core of the subsumption property: after the reduction pipeline of
`findConditionsCore`, no surviving condition's (game, winner) set is a strict
subset of another survivor's. -/
theorem conditionsCore_no_strict_subset {want : Bool} {scs : List Scenario}
    {unplayed : List Game} {team : String} (hnd : unplayed.Nodup) :
    ∀ A ∈ findConditionsCore want scs unplayed team,
    ∀ B ∈ findConditionsCore want scs unplayed team,
      ¬ ((B.outcomes.map fun o => (o.game, o.winner)).toFinset ⊂
         (A.outcomes.map fun o => (o.game, o.winner)).toFinset) := by
  intro A hA B hB hsub
  obtain ⟨a₀, ha₀min, -, rfl⟩ := mem_findConditionsCore_decomp hA
  obtain ⟨b₀, hb₀min, -, rfl⟩ := mem_findConditionsCore_decomp hB
  rw [targetFirst_pairs, targetFirst_pairs] at hsub
  obtain ⟨ha₀u, hapred⟩ := mem_condMinimal.mp ha₀min
  have hb₀u := (mem_condMinimal.mp hb₀min).1
  obtain ⟨ixa, pa, hpwa, hbda, -, -, ha₀⟩ := mem_condUnique_shape ha₀u
  obtain ⟨ixb, pb, hpwb, hbdb, -, -, hb₀⟩ := mem_condUnique_shape hb₀u
  have houts : ∀ o ∈ b₀.outcomes, o ∈ a₀.outcomes := by
    intro o ho
    have hpair : (o.game, o.winner) ∈
        (a₀.outcomes.map fun o => (o.game, o.winner)).toFinset :=
      hsub.subset (List.mem_toFinset.mpr (List.mem_map.mpr ⟨o, ho, rfl⟩))
    rw [List.mem_toFinset] at hpair
    obtain ⟨o', ho', hoo⟩ := List.mem_map.mp hpair
    have hob : o ∈ mkOutcomes unplayed ixb pb := by rw [hb₀] at ho; exact ho
    have hoa : o' ∈ mkOutcomes unplayed ixa pa := by rw [ha₀] at ho'; exact ho'
    have hg : o.game = o'.game := (congrArg Prod.fst hoo).symm
    have hw : o.winner = o'.winner := (congrArg Prod.snd hoo).symm
    have : o = o' := candidate_pairs_determine hob hoa hg hw
    rw [this]
    exact ho'
  have hnda : (a₀.outcomes.map fun o => (o.game, o.winner)).Nodup := by
    rw [ha₀]
    exact mkOutcomes_pairs_nodup hnd hpwa hbda
  have hndb : (b₀.outcomes.map fun o => (o.game, o.winner)).Nodup := by
    rw [hb₀]
    exact mkOutcomes_pairs_nodup hnd hpwb hbdb
  have hcard := Finset.card_lt_card hsub
  rw [List.toFinset_card_of_nodup hndb, List.toFinset_card_of_nodup hnda,
      List.length_map, List.length_map] at hcard
  rw [Bool.not_eq_true'] at hapred
  have hb := List.any_eq_false.mp hapred b₀ hb₀u
  apply hb
  rw [Bool.and_eq_true]
  refine ⟨decide_eq_true hcard, ?_⟩
  rw [List.all_eq_true]
  intro s hs
  obtain ⟨o, ho, rfl⟩ := List.mem_map.mp hs
  exact List.elem_iff.mpr (List.mem_map.mpr ⟨o, houts o ho, rfl⟩)

/-- C6: after the reduction pass, no two surviving Conditions in either the
sufficient or the blocking collection have one condition's outcome set — its
set of (game, required winner) pairs — a strict subset of the other's,
provided the unplayed-game list has no duplicate entries. -/
theorem conditions_no_strict_subset {scs : List Scenario}
    {unplayed : List Game} {team : String} (hnd : unplayed.Nodup) :
    (∀ A ∈ findSufficientConditions scs unplayed team,
     ∀ B ∈ findSufficientConditions scs unplayed team,
       ¬ ((B.outcomes.map fun o => (o.game, o.winner)).toFinset ⊂
          (A.outcomes.map fun o => (o.game, o.winner)).toFinset)) ∧
    (∀ A ∈ findBlockingConditions scs unplayed team,
     ∀ B ∈ findBlockingConditions scs unplayed team,
       ¬ ((B.outcomes.map fun o => (o.game, o.winner)).toFinset ⊂
          (A.outcomes.map fun o => (o.game, o.winner)).toFinset)) :=
  ⟨conditionsCore_no_strict_subset hnd, conditionsCore_no_strict_subset hnd⟩

theorem conditions_no_strict_subset_witness :
    rematchGames.Nodup ∧
    ((∀ A ∈ findSufficientConditions rematchScenarios rematchGames "A",
      ∀ B ∈ findSufficientConditions rematchScenarios rematchGames "A",
        ¬ ((B.outcomes.map fun o => (o.game, o.winner)).toFinset ⊂
           (A.outcomes.map fun o => (o.game, o.winner)).toFinset)) ∧
     (∀ A ∈ findBlockingConditions rematchScenarios rematchGames "A",
      ∀ B ∈ findBlockingConditions rematchScenarios rematchGames "A",
        ¬ ((B.outcomes.map fun o => (o.game, o.winner)).toFinset ⊂
           (A.outcomes.map fun o => (o.game, o.winner)).toFinset))) :=
  ⟨by decide, conditions_no_strict_subset (by decide)⟩

/-- If every signature string of a candidate occurs among the signature
strings of the full-pattern condition for scenario `k`, then scenario `k`
matches the candidate (signature injectivity turns string membership into
constraint agreement). -/
theorem matches_of_sig_subset {scs : List Scenario} {unplayed : List Game}
    {n k : Nat}
    (hn : n = unplayed.length)
    (hinj : sigInjective unplayed)
    (hk : k < scs.length)
    (hvec : ∀ j, j < scs.length →
      (scs.getD j dummyScenario).gameResults =
        (List.range n).map (Nat.testBit j))
    {ixr : List Nat} {pr : Nat}
    (hbd : ∀ i ∈ ixr, i < unplayed.length)
    (hsub : ∀ s ∈ (mkOutcomes unplayed ixr pr).map
        (fun o => o.winner ++ "-" ++ o.loser),
      s ∈ (mkOutcomes unplayed (List.range n) k).map
        (fun o => o.winner ++ "-" ++ o.loser)) :
    k ∈ patternMatchesOf scs ixr pr := by
  rw [mem_patternMatchesOf]
  have hgd : scs.get? k = some (scs.getD k dummyScenario) := by
    rw [List.get?_eq_get hk, List.getD_eq_getElem scs dummyScenario hk]
    rfl
  refine ⟨scs.getD k dummyScenario, hgd, ?_⟩
  rw [List.all_eq_true]
  intro q hq
  have hq2mem : q.2 ∈ ixr := List.get?_mem (mem_enum_fst_lt hq).2
  have hstr : outStr (unplayed.getD q.2 dummyGame) (pr.testBit q.1) ∈
      (mkOutcomes unplayed (List.range n) k).map
        (fun o => o.winner ++ "-" ++ o.loser) := by
    apply hsub
    rw [sig_mkOutcomes]
    exact List.mem_map.mpr ⟨q, hq, rfl⟩
  rw [sig_mkOutcomes] at hstr
  obtain ⟨q', hq', heq⟩ := List.mem_map.mp hstr
  obtain ⟨hq'lt, hq'eq⟩ := enum_range_mem hq'
  have hmem1 : q'.2 ∈ List.range unplayed.length := by
    rw [List.mem_range, hq'eq]
    omega
  have hmem2 : q.2 ∈ List.range unplayed.length :=
    List.mem_range.mpr (hbd q.2 hq2mem)
  have hinj' := hinj q'.2 hmem1 q.2 hmem2 (k.testBit q'.1) (pr.testBit q.1) heq
  have hq'1 : q'.1 = q.2 := by rw [← hq'eq]; exact hinj'.1
  have hbit : pr.testBit q.1 = k.testBit q.2 := by
    rw [← hinj'.2, hq'1]
  have hq2n : q.2 < n := by
    have := hbd q.2 hq2mem
    omega
  rw [hvec k hk, List.get?_map, List.get?_range hq2n]
  simp [hbit]

/-- On a proper enumeration (scenario `j`'s outcome vector is the binary
digits of `j`), the full pattern for scenario `k` matches exactly `k`. -/
theorem patternMatches_full {scs : List Scenario} {n k : Nat}
    (hlen : scs.length = 2 ^ n)
    (hvec : ∀ j, j < scs.length →
      (scs.getD j dummyScenario).gameResults =
        (List.range n).map (Nat.testBit j))
    (hk : k < scs.length) :
    patternMatchesOf scs (List.range n) k = [k] := by
  apply nodup_mem_singleton (patternMatchesOf_nodup scs (List.range n) k)
  · rw [mem_patternMatchesOf]
    refine ⟨scs.getD k dummyScenario, ?_, ?_⟩
    · rw [List.get?_eq_get hk, List.getD_eq_getElem scs dummyScenario hk]
      rfl
    · rw [List.all_eq_true]
      intro q hq
      obtain ⟨hlt, heq⟩ := enum_range_mem hq
      rw [hvec k hk, List.get?_map, heq, List.get?_range hlt]
      simp
  · intro j hj
    rw [mem_patternMatchesOf] at hj
    obtain ⟨sc, hsc, hall⟩ := hj
    have hjlt : j < scs.length := (List.get?_eq_some.mp hsc).1
    have hscd : sc = scs.getD j dummyScenario := by
      rw [List.getD_eq_getElem scs dummyScenario hjlt]
      rw [List.get?_eq_get hjlt] at hsc
      exact (Option.some.inj hsc).symm
    have hbit : ∀ i, i < n → j.testBit i = k.testBit i := by
      intro i hi
      have hmem : (i, i) ∈ (List.range n).enum :=
        List.mk_mem_enum_iff_get?.mpr (List.get?_range hi)
      have h := List.all_eq_true.mp hall (i, i) hmem
      rw [hscd, hvec j hjlt, List.get?_map, List.get?_range hi] at h
      simpa using h
    have hj2 : j < 2 ^ n := hlen ▸ hjlt
    have hk2 : k < 2 ^ n := hlen ▸ hk
    apply bits_inj hj2 hk2
    exact List.map_congr_left fun i hi => hbit i (List.mem_range.mp hi)

theorem exists_min_pred {α : Type} (f : α → Nat) (P : α → Prop) :
    ∀ l : List α, (∃ a ∈ l, P a) →
      ∃ a ∈ l, P a ∧ ∀ b ∈ l, P b → f a ≤ f b := by
  intro l
  induction l with
  | nil =>
    rintro ⟨a, ha, -⟩
    exact absurd ha (List.not_mem_nil a)
  | cons x t ih =>
    rintro ⟨a, ha, hPa⟩
    by_cases ht : ∃ b ∈ t, P b
    · obtain ⟨c, hc, hPc, hmin⟩ := ih ht
      by_cases hx : P x ∧ f x ≤ f c
      · refine ⟨x, List.mem_cons_self _ _, hx.1, ?_⟩
        intro b hb hPb
        rcases List.mem_cons.mp hb with rfl | hb
        · exact le_refl _
        · exact le_trans hx.2 (hmin b hb hPb)
      · refine ⟨c, List.mem_cons_of_mem _ hc, hPc, ?_⟩
        intro b hb hPb
        rcases List.mem_cons.mp hb with rfl | hb
        · by_cases hPx : P b
          · have hnot : ¬ f b ≤ f c := fun hle => hx ⟨hPx, hle⟩
            omega
          · exact absurd hPb hPx
        · exact hmin b hb hPb
    · rcases List.mem_cons.mp ha with rfl | ha'
      · refine ⟨a, List.mem_cons_self _ _, hPa, ?_⟩
        intro b hb hPb
        rcases List.mem_cons.mp hb with rfl | hb
        · exact le_refl _
        · exact absurd ⟨b, hb, hPb⟩ ht
      · exact absurd ⟨a, ha', hPa⟩ ht

theorem exists_max_pred {α : Type} (f : α → Nat) (P : α → Prop) :
    ∀ l : List α, (∃ a ∈ l, P a) →
      ∃ a ∈ l, P a ∧ ∀ b ∈ l, P b → f b ≤ f a := by
  intro l
  induction l with
  | nil =>
    rintro ⟨a, ha, -⟩
    exact absurd ha (List.not_mem_nil a)
  | cons x t ih =>
    rintro ⟨a, ha, hPa⟩
    by_cases ht : ∃ b ∈ t, P b
    · obtain ⟨c, hc, hPc, hmax⟩ := ih ht
      by_cases hx : P x ∧ f c ≤ f x
      · refine ⟨x, List.mem_cons_self _ _, hx.1, ?_⟩
        intro b hb hPb
        rcases List.mem_cons.mp hb with rfl | hb
        · exact le_refl _
        · exact le_trans (hmax b hb hPb) hx.2
      · refine ⟨c, List.mem_cons_of_mem _ hc, hPc, ?_⟩
        intro b hb hPb
        rcases List.mem_cons.mp hb with rfl | hb
        · by_cases hPx : P b
          · have hnot : ¬ f c ≤ f b := fun hle => hx ⟨hPx, hle⟩
            omega
          · exact absurd hPb hPx
        · exact hmax b hb hPb
    · rcases List.mem_cons.mp ha with rfl | ha'
      · refine ⟨a, List.mem_cons_self _ _, hPa, ?_⟩
        intro b hb hPb
        rcases List.mem_cons.mp hb with rfl | hb
        · exact le_refl _
        · exact absurd ⟨b, hb, hPb⟩ ht
      · exact absurd ⟨a, ha', hPa⟩ ht

theorem mem_coverageFilter {l : List Condition} {c : Condition} :
    c ∈ coverageFilter l ↔ c ∈ l ∧
      (!(l.any fun condB =>
        c.scenarioIndices.all (fun idx =>
          condB.scenarioIndices.contains idx) &&
        c.scenarioIndices.length < condB.scenarioIndices.length)) = true := by
  unfold coverageFilter
  exact List.mem_filter

/-- Every scenario index covered by a returned condition is in range and
satisfies the polarity condition. -/
theorem findConditionsCore_indices_sound {want : Bool} {scs : List Scenario}
    {unplayed : List Game} {team : String} {c : Condition}
    (h : c ∈ findConditionsCore want scs unplayed team) :
    ∀ k ∈ c.scenarioIndices, k < scs.length ∧
      ((scs.getD k dummyScenario).topTwo.contains team) = want := by
  obtain ⟨c₀, hmin, -, rfl⟩ := mem_findConditionsCore_decomp h
  have hu := (mem_condMinimal.mp hmin).1
  obtain ⟨ix, pat, -, -, -, hw, hc₀⟩ := mem_condUnique_shape hu
  intro k hk
  rw [targetFirst_scenarioIndices, hc₀] at hk
  dsimp only at hk
  refine ⟨?_, hw k hk⟩
  exact List.mem_range.mp ((patternMatchesOf_sublist scs ix pat).subset hk)

/-- C5 (amended): on a proper enumeration (scenario `j`'s outcome vector is
the binary digits of `j`, `2^n` scenarios, `1 ≤ n ≤ 6`) whose unplayed games
have injective outcome signature strings (no rematches), the union of the
scenario-index sets covered by the surviving sufficient Conditions for a team
equals exactly the set of scenario indices in which that team is in the top
two. -/
theorem sufficient_coverage {scs : List Scenario} {unplayed : List Game}
    {team : String} {n : Nat}
    (hn : n = unplayed.length)
    (h1 : 1 ≤ n) (h6 : n ≤ 6)
    (hlen : scs.length = 2 ^ n)
    (hvec : ∀ j, j < scs.length →
      (scs.getD j dummyScenario).gameResults =
        (List.range n).map (Nat.testBit j))
    (hinj : sigInjective unplayed) :
    ∀ k, k < scs.length →
      (((scs.getD k dummyScenario).topTwo.contains team) = true ↔
        ∃ c ∈ findSufficientConditions scs unplayed team,
          k ∈ c.scenarioIndices) := by
  intro k hk
  constructor
  case mpr =>
    rintro ⟨c, hc, hkc⟩
    exact (findConditionsCore_indices_sound hc k hkc).2
  case mp =>
    intro htop
    have hk2 : k < 2 ^ n := hlen ▸ hk
    have hpmfull : patternMatchesOf scs (List.range n) k = [k] :=
      patternMatches_full hlen hvec hk
    have hFk : (⟨mkOutcomes unplayed (List.range n) k,
        (patternMatchesOf scs (List.range n) k).length,
        patternMatchesOf scs (List.range n) k⟩ : Condition) ∈
        condCandidates true scs unplayed team := by
      unfold condCandidates
      rw [List.mem_flatMap]
      refine ⟨n, ?_, ?_⟩
      · rw [List.mem_range'_1]
        omega
      · rw [mem_findConditionsOfSizeCore]
        refine ⟨List.range n, k, ?_, List.mem_range.mpr hk2, ?_, ?_, rfl⟩
        · rw [← hn]
          exact range_mem_generateCombinations n
        · rw [hpmfull]
          simp
        · rw [hpmfull]
          intro idx hidx
          rw [List.mem_singleton] at hidx
          subst hidx
          exact htop
    have hsorted : (⟨mkOutcomes unplayed (List.range n) k,
        (patternMatchesOf scs (List.range n) k).length,
        patternMatchesOf scs (List.range n) k⟩ : Condition) ∈
        List.insertionSort condLE (condCandidates true scs unplayed team) :=
      (List.perm_insertionSort condLE _).mem_iff.mpr hFk
    obtain ⟨r, hru, hrsig⟩ := dedupBySig_rep hsorted
    have key : ∀ c ∈ condUnique true scs unplayed team,
        (∀ s ∈ sigOf c,
          s ∈ (mkOutcomes unplayed (List.range n) k).map
            (fun o => o.winner ++ "-" ++ o.loser)) →
        k ∈ c.scenarioIndices := by
      intro c hcu hsig
      obtain ⟨ix, pat, -, hbd, -, -, hceq⟩ := mem_condUnique_shape hcu
      have hki : k ∈ patternMatchesOf scs ix pat := by
        apply matches_of_sig_subset hn hinj hk hvec hbd
        intro s hs
        apply hsig
        rw [hceq]
        exact hs
      rw [hceq]
      exact hki
    have hru' : r ∈ condUnique true scs unplayed team := hru
    have hrP : ∀ s ∈ sigOf r,
        s ∈ (mkOutcomes unplayed (List.range n) k).map
          (fun o => o.winner ++ "-" ++ o.loser) := by
      intro s hs
      rw [hrsig] at hs
      exact hs
    obtain ⟨c₁, hc₁u, hc₁P, hc₁min⟩ :=
      exists_min_pred (fun c => c.outcomes.length)
        (fun c => ∀ s ∈ sigOf c,
          s ∈ (mkOutcomes unplayed (List.range n) k).map
            (fun o => o.winner ++ "-" ++ o.loser))
        (condUnique true scs unplayed team) ⟨r, hru', hrP⟩
    have hc₁m : c₁ ∈ condMinimal true scs unplayed team := by
      rw [mem_condMinimal]
      refine ⟨hc₁u, ?_⟩
      rw [Bool.not_eq_true']
      apply List.any_eq_false.mpr
      intro B hB hcontra
      rw [Bool.and_eq_true] at hcontra
      obtain ⟨hlt, hsub⟩ := hcontra
      have hltn : B.outcomes.length < c₁.outcomes.length :=
        of_decide_eq_true hlt
      have hBP : ∀ s ∈ sigOf B,
          s ∈ (mkOutcomes unplayed (List.range n) k).map
            (fun o => o.winner ++ "-" ++ o.loser) := by
        intro s hs
        have hcont := List.all_eq_true.mp hsub s hs
        exact hc₁P s (List.elem_iff.mp hcont)
      have := hc₁min B hB hBP
      omega
    have hkc₁ : k ∈ c₁.scenarioIndices := key c₁ hc₁u hc₁P
    obtain ⟨c₂, hc₂m, hkc₂, hc₂max⟩ :=
      exists_max_pred (fun c => c.scenarioIndices.length)
        (fun c => k ∈ c.scenarioIndices)
        (condMinimal true scs unplayed team) ⟨c₁, hc₁m, hkc₁⟩
    have hc₂cov : c₂ ∈ coverageFilter (condMinimal true scs unplayed team) := by
      rw [mem_coverageFilter]
      refine ⟨hc₂m, ?_⟩
      rw [Bool.not_eq_true']
      apply List.any_eq_false.mpr
      intro B hB hcontra
      rw [Bool.and_eq_true] at hcontra
      obtain ⟨hsub, hlt⟩ := hcontra
      have hltn : c₂.scenarioIndices.length < B.scenarioIndices.length :=
        of_decide_eq_true hlt
      have hkB : k ∈ B.scenarioIndices :=
        List.elem_iff.mp (List.all_eq_true.mp hsub k hkc₂)
      have := hc₂max B hB hkB
      omega
    refine ⟨targetFirst team c₂, ?_, ?_⟩
    · unfold findSufficientConditions
      rw [findConditionsCore_eq]
      exact List.mem_map.mpr ⟨c₂, hc₂cov, rfl⟩
    · rw [targetFirst_scenarioIndices]
      exact hkc₂

theorem sufficient_coverage_witness :
    ((1 : Nat) = (getUnplayedGames confU).length ∧ (1 : Nat) ≤ 1 ∧
     (1 : Nat) ≤ 6 ∧
     (simulateConference rand0 25 confU).length = 2 ^ 1 ∧
     (∀ j, j < (simulateConference rand0 25 confU).length →
       ((simulateConference rand0 25 confU).getD j
           dummyScenario).gameResults =
         (List.range 1).map (Nat.testBit j)) ∧
     sigInjective (getUnplayedGames confU)) ∧
    (∀ k, k < (simulateConference rand0 25 confU).length →
      ((((simulateConference rand0 25 confU).getD k
            dummyScenario).topTwo.contains "A") = true ↔
        ∃ c ∈ findSufficientConditions (simulateConference rand0 25 confU)
            (getUnplayedGames confU) "A", k ∈ c.scenarioIndices)) :=
  ⟨⟨by decide, by decide, by decide, by decide, by decide, by decide⟩,
   @sufficient_coverage (simulateConference rand0 25 confU)
     (getUnplayedGames confU) "A" 1 (by decide) (by decide) (by decide)
     (by decide) (by decide) (by decide)⟩

/-- C5 counterexample to the unamended claim: with two "rematch" unplayed
games sharing the same participant slots, team A is in the top two of
scenario 2, yet no returned sufficient condition covers index 2 — the
string-keyed dedup conflates constraints on the two games, so the coverage
union is a strict subset of the top-two index set. -/
theorem sufficient_coverage_counterexample :
    ("A" ∈ (rematchScenarios.getD 2 dummyScenario).topTwo ∧
     ∀ c ∈ findSufficientConditions rematchScenarios rematchGames "A",
       2 ∉ c.scenarioIndices) := by decide

end TS
